import Mathlib

/-!
Verification of the university price/ranking repository.

This file gives a shallow embedding of the code that the claims C1-C10 are
about, together with theorems settling each claim:

* `fix_university_matching.py` — `StrictUniversityMatcher`:
  `canonicalize_name`, `compute_similarity_matrix`, `apply_gap_rule` and
  `match_universities` (thresholding, Hungarian-style assignment, final
  filtering, and the construction of the matched-rows table).
* `real_sweet_spot_analysis.py` — `RealSweetSpotAnalyzer.calculate_value_scores`
  (rank/price percentiles and value score).

Modelling conventions:
* Python `str` is modelled as Lean `String` / `List Char`; the regular
  expressions of `canonicalize_name` are unfolded into explicit recursive
  functions over `List Char` (see the comments at each definition).
* `unidecode` (third-party transliteration library) is modelled as the
  identity, which is its behaviour on ASCII input; the theorems whose truth
  depends on this carry an explicit ASCII hypothesis.
* floats are modelled as exact numbers: `ℝ` for the TF-IDF similarity
  pipeline (whose idf weights involve a logarithm), `ℚ` for the percentile
  arithmetic of the sweet-spot analyser.  NumPy's NaN (produced by `0/0`)
  is modelled as `Option.none` with propagating arithmetic.
* the assignment step (`scipy.optimize.linear_sum_assignment`) is modelled
  as exact minimisation of the total cost over all injective assignments,
  which is the specification of that routine.
-/

namespace UniPrices

/-! ## Character-level helpers (Python `re` with ASCII scope)

`\w` in the source's regexes is `[a-zA-Z0-9_]` on the ASCII strings we
consider, `\s` is ASCII whitespace. -/

/-- Python regex `\w` (word character), ASCII scope: `[a-zA-Z0-9_]`. -/
def isWordChar (c : Char) : Bool := c.isAlphanum || c == '_'

/-- Python regex `\s` (whitespace), ASCII scope: space, tab, newline,
carriage return, vertical tab, form feed. -/
def isSpaceChar (c : Char) : Bool :=
  c == ' ' || c == '\t' || c == '\n' || c == '\r' || c == Char.ofNat 11 || c == Char.ofNat 12

/-- Python `str.lower()` (ASCII scope). -/
def pyLower (l : List Char) : List Char := l.map Char.toLower

/-- Python `str.strip()`: remove leading and trailing whitespace. -/
def pyStrip (l : List Char) : List Char :=
  ((l.dropWhile isSpaceChar).reverse.dropWhile isSpaceChar).reverse

/-- `unidecode.unidecode`, modelled as the identity: on ASCII input the
library returns its argument unchanged.  Theorems that rely on this carry
an ASCII hypothesis. -/
def unidecodeModel (l : List Char) : List Char := l

/-- Close the word run accumulated by `rwrGo`: a maximal word-character
run equal to the key is replaced by the expansion, every other run is kept. -/
def emitRun (key repl cur : List Char) : List Char :=
  if cur.isEmpty then [] else if cur = key then repl else cur

/-- Scanner for one abbreviation-expansion pass; `cur` accumulates the
current (not yet finished) run of word characters. -/
def rwrGo (key repl cur : List Char) : List Char → List Char
  | [] => emitRun key repl cur
  | c :: cs =>
    if isWordChar c then rwrGo key repl (cur ++ [c]) cs
    else emitRun key repl cur ++ c :: rwrGo key repl [] cs

/-- One abbreviation-expansion pass
`re.sub(rf'\b{re.escape(abbr)}\b', full, name)` for a key consisting of
word characters only.  Because the key is all word characters, the pattern
matches exactly the maximal word-character runs that equal the key, so the
substitution replaces each such maximal run by `repl`. -/
def replaceWordRuns (key repl : List Char) (l : List Char) : List Char :=
  rwrGo key repl [] l

/-- Scanner for `re.sub(r'\b&\b', 'and', name)`.  `&` is not a word
character, so `\b&\b` matches exactly an `&` with a word character
immediately before and after it; `prevWord` records whether the previous
character of the original string was a word character. -/
def ampGo (prevWord : Bool) : List Char → List Char
  | [] => []
  | c :: cs =>
    if c = '&' then
      (match cs with
       | [] => ['&']
       | d :: _ =>
         if prevWord && isWordChar d then 'a' :: 'n' :: 'd' :: ampGo false cs
         else '&' :: ampGo false cs)
    else c :: ampGo (isWordChar c) cs

/-- `re.sub(r'\b&\b', 'and', name)`: at the start of the string there is no
preceding word character. -/
def ampSub (l : List Char) : List Char := ampGo false l

/-- The `self.abbreviations` dict of `StrictUniversityMatcher.__init__`,
applied in Python insertion order by the loop in `canonicalize_name`. -/
def applyAbbrevs (l : List Char) : List Char :=
  replaceWordRuns "penn".data "pennsylvania".data
    (replaceWordRuns "calif".data "california".data
      (replaceWordRuns "u".data "university".data
        (ampSub
          (replaceWordRuns "eng".data "engineering".data
            (replaceWordRuns "sci".data "science".data
              (replaceWordRuns "tech".data "technology".data
                (replaceWordRuns "inst".data "institute".data
                  (replaceWordRuns "univ".data "university".data l))))))))

/-- The word-character abbreviation keys, in application order (the `&`
key is handled by `ampSub` between `eng` and `u`). -/
def abbrevKeys : List (List Char) :=
  ["univ".data, "inst".data, "tech".data, "sci".data, "eng".data,
   "u".data, "calif".data, "penn".data]

/-- `re.sub(r'[^\w\s]', ' ', name)`. -/
def punctToSpace (l : List Char) : List Char :=
  l.map fun c => if isWordChar c || isSpaceChar c then c else ' '

/-- Scanner for `re.sub(r'\s+', ' ', name)`; `inRun` records whether the
previous character was whitespace (in which case further whitespace is
absorbed into the single space already emitted). -/
def csGo (inRun : Bool) : List Char → List Char
  | [] => []
  | c :: cs =>
    if isSpaceChar c then
      (if inRun then csGo true cs else ' ' :: csGo true cs)
    else c :: csGo false cs

/-- `re.sub(r'\s+', ' ', name)`: collapse each maximal whitespace run into
a single space. -/
def collapseSpaces (l : List Char) : List Char := csGo false l

/-- Scanner for Python `str.split()`; `cur` accumulates the current run of
non-whitespace characters. -/
def stGo (cur : List Char) : List Char → List (List Char)
  | [] => if cur.isEmpty then [] else [cur]
  | c :: cs =>
    if isSpaceChar c then
      (if cur.isEmpty then stGo [] cs else cur :: stGo [] cs)
    else stGo (cur ++ [c]) cs

/-- Python `str.split()` with no argument: the maximal runs of
non-whitespace characters. -/
def splitTokens (l : List Char) : List (List Char) := stGo [] l

/-- The `self.stop_words` set of `StrictUniversityMatcher.__init__`. -/
def stopWords : List (List Char) :=
  ["university".data, "college".data, "school".data, "institute".data,
   "institution".data, "of".data, "the".data, "at".data, "for".data,
   "and".data, "in".data, "on".data, "state".data, "system".data,
   "campus".data, "main".data, "branch".data]

/-- Lexicographic comparison of character lists by code point; this is the
order Python's `sorted` uses on strings. -/
def lexLeB : List Char → List Char → Bool
  | [], _ => true
  | _ :: _, [] => false
  | a :: as, b :: bs => if a < b then true else if b < a then false else lexLeB as bs

/-- The token order used for `sorted(tokens)`. -/
def tokLE (a b : List Char) : Prop := lexLeB a b = true

instance : DecidableRel tokLE := fun a b => instDecidableEqBool (lexLeB a b) true

/-- Join a token list with single spaces (`' '.join(tokens)`). -/
def joinTokens : List (List Char) → List Char
  | [] => []
  | [t] => t
  | t :: ts => t ++ ' ' :: joinTokens ts

/-- The token filter of `canonicalize_name` step 4:
`[token for token in name.split() if token and token not in self.stop_words]`. -/
def keepToken (t : List Char) : Bool := !t.isEmpty && !stopWords.contains t

/-- Steps 1-4 of `canonicalize_name`: the filtered token list before the
final sort. -/
def canonTokens (s : String) : List (List Char) :=
  (splitTokens (collapseSpaces (punctToSpace
    (applyAbbrevs (unidecodeModel (pyStrip (pyLower s.data))))))).filter keepToken

/-- `StrictUniversityMatcher.canonicalize_name` (the `pd.isna` branch does
not apply to the string inputs modelled here). -/
def canonicalize_name (s : String) : String :=
  String.mk (joinTokens (List.insertionSort tokLE (canonTokens s)))

/-- A character that survives into a canonical token: a word character
that is not an ASCII uppercase letter (so `Char.toLower` fixes it). -/
def lowerWordChar (c : Char) : Bool :=
  isWordChar c && !(decide (65 ≤ c.toNat) && decide (c.toNat ≤ 90))

/-- Whether the three-letter sequence `and` occurs anywhere in the string;
runs merged by the `&` expansion always contain it, and no abbreviation
key does. -/
def containsAnd : List Char → Bool
  | [] => false
  | c :: cs => (decide (c = 'a') && decide (cs.take 2 = ['n', 'd'])) || containsAnd cs

/-- ASCII scope marker: the fidelity range of the embedding of
`unidecode` and of Python's case mapping. -/
def isASCIIString (s : String) : Bool := s.data.all fun c => decide (c.toNat ≤ 127)

example : canonicalize_name "Harvard University" = "harvard" := by decide
example : canonicalize_name "MIT" = "mit" := by decide
example : canonicalize_name "Harvard Univ." = "harvard" := by decide
example : canonicalize_name "Massachusetts Institute of Technology" = "massachusetts technology" := by decide
example : canonicalize_name "University" = "" := by decide
example : canonicalize_name "Texas A&M Univ" = "aandm texas" := by decide

/-! ## The matching stage of `StrictUniversityMatcher.match_universities`

The code from line 198 on operates on the similarity matrix alone, so it is
embedded as a function of an arbitrary matrix over a linear ordered
commutative ring (the pipeline instantiates it at `ℝ`; the concrete
counterexamples live at `ℤ`, where everything evaluates by `decide`). -/

/-- Maximum of a list, `none` on the empty list (NumPy's `np.max` raises on
an empty array; rows are nonempty whenever the scorecard side is). -/
def listMaximum {α : Type} [LinearOrder α] : List α → Option α :=
  List.foldl (fun acc x =>
    match acc with
    | none => some x
    | some a => some (max a x)) none

/-- First element minimising `f` (ties keep the earlier element), `none` on
the empty list. -/
def listArgmin {α β : Type} [LinearOrder α] (f : β → α) : List β → Option β
  | [] => none
  | b :: bs =>
    match listArgmin f bs with
    | none => some b
    | some a => if f a < f b then some a else some b

/-- All injective sequences of length `k` drawn from `pool`: the candidate
assignments among which `scipy.optimize.linear_sum_assignment` finds a
cost minimiser. -/
def injSeqs {γ : Type} [DecidableEq γ] (pool : List γ) : ℕ → List (List γ)
  | 0 => [[]]
  | k + 1 => pool.flatMap fun x => (injSeqs (pool.erase x) k).map (x :: ·)

section Matching

variable {α : Type} [LinearOrderedCommRing α] {n m : ℕ}

/-- Row `i` of the similarity matrix, `similarity_matrix[i]`. -/
def rowValues (sim : Fin n → Fin m → α) (i : Fin n) : List α :=
  (List.finRange m).map (sim i)

/-- `best_score = np.max(row)` (line 208).  For `m = 0` NumPy would raise;
the model returns `0`, and the assignment is empty anyway. -/
def best_score (sim : Fin n → Fin m → α) (i : Fin n) : α :=
  (listMaximum (rowValues sim i)).getD 0

/-- `StrictUniversityMatcher.apply_gap_rule` with the default
`min_gap = 5.0`: sort the row in decreasing order and require
`sorted[0] - sorted[1] >= min_gap` (rows of fewer than two entries pass). -/
def apply_gap_rule (row : List α) : Bool :=
  match List.insertionSort (fun a b => b ≤ a) row with
  | s0 :: s1 :: _ => decide (5 ≤ s0 - s1)
  | _ => true

/-- The row filter of lines 206-215: `best_score >= MIN_SIMILARITY and
self.apply_gap_rule(row, MIN_GAP)` with `MIN_SIMILARITY = 90`. -/
def rowKept (sim : Fin n → Fin m → α) (i : Fin n) : Bool :=
  decide (90 ≤ best_score sim i) && apply_gap_rule (rowValues sim i)

/-- `filtered_matrix`: rows failing the filter are zeroed out
("not confident enough", line 215). -/
def filtered_matrix (sim : Fin n → Fin m → α) : Fin n → Fin m → α :=
  fun i j => if rowKept sim i then sim i j else 0

/-- `cost_matrix = 100 - filtered_matrix` (line 220). -/
def cost_matrix (sim : Fin n → Fin m → α) : Fin n → Fin m → α :=
  fun i j => 100 - filtered_matrix sim i j

/-- `scipy.optimize.linear_sum_assignment(cost_matrix)`: an assignment of
`min(n, m)` pairs with distinct rows and distinct columns minimising the
total cost, returned in increasing row order for `n ≤ m` (and in
increasing column order otherwise). -/
def linear_sum_assignment (sim : Fin n → Fin m → α) : List (Fin n × Fin m) :=
  if n ≤ m then
    match listArgmin
        (fun c => (((List.finRange n).zip c).map fun p => cost_matrix sim p.1 p.2).sum)
        (injSeqs (List.finRange m) n) with
    | some c => (List.finRange n).zip c
    | none => []
  else
    match listArgmin
        (fun c => ((c.zip (List.finRange m)).map fun p => cost_matrix sim p.1 p.2).sum)
        (injSeqs (List.finRange n) m) with
    | some c => c.zip (List.finRange m)
    | none => []

/-- Lines 224-240: keep an assigned pair `(i, j)` iff
`similarity_matrix[i, j] >= MIN_SIMILARITY` — note that the code reads the
ORIGINAL similarity matrix here, not the filtered one. -/
def matchFromSimilarity (sim : Fin n → Fin m → α) : List (Fin n × Fin m) :=
  (linear_sum_assignment sim).filter fun p => decide (90 ≤ sim p.1 p.2)

end Matching

example : matchFromSimilarity (α := ℤ) ![![95, 93], ![96, 0]] = [(0, 1), (1, 0)] := by decide
example : rowKept (α := ℤ) ![![95, 93], ![96, 0]] 0 = false := by decide
example : matchFromSimilarity (α := ℤ) ![![100, 0], ![0, 0]] = [(0, 0)] := by decide
example : matchFromSimilarity (α := ℤ) ![![0, 0], ![0, 0]] = [] := by decide
example : matchFromSimilarity (α := ℤ) ![![95, 0, 91]] = [(0, 0)] := by decide

/-! ## `RealSweetSpotAnalyzer.calculate_value_scores`

Records model the rows of `real_university_data.csv` after
`dropna(subset=['price_usd', 'rank'])`, so `rank` and `price_usd` are
present (non-NaN).  NumPy float division `0/0` produces NaN, not an
exception; NaN is modelled as `Option.none` with propagating arithmetic.
The `Except` result channel models Python exceptions: no statement in the
function body can raise, so the result is always `.ok`. -/

/-- A data row with both `price_usd` and `rank` present. -/
structure UniRecord where
  institution : String
  country : String
  rank : ℚ
  price_usd : ℚ
deriving DecidableEq

/-- A row of the frame returned by `calculate_value_scores`; the three
computed columns are `Option ℚ`, `none` modelling NaN. -/
structure ScoredRecord where
  institution : String
  country : String
  rank : ℚ
  price_usd : ℚ
  rank_percentile : Option ℚ
  price_percentile : Option ℚ
  value_score : Option ℚ
deriving DecidableEq

/-- `df[col].min()` (pandas column minimum; the empty-frame case, where
pandas yields NaN, is unreachable because the per-row map is then empty). -/
def colMin (f : UniRecord → ℚ) : List UniRecord → ℚ
  | [] => 0
  | r :: rs => rs.foldl (fun a x => min a (f x)) (f r)

/-- `df[col].max()`. -/
def colMax (f : UniRecord → ℚ) : List UniRecord → ℚ
  | [] => 0
  | r :: rs => rs.foldl (fun a x => max a (f x)) (f r)

/-- NumPy float division: `0/0` is NaN (`none`).  The only reachable
division by zero here has numerator `0` as well (`rank = min = max`), so
`none` faithfully models the NaN produced there. -/
def pyDiv (a b : ℚ) : Option ℚ := if b = 0 then none else some (a / b)

/-- `df['rank_percentile'] = 100 - ((df['rank'] - df['rank'].min()) /
(df['rank'].max() - df['rank'].min()) * 100)` (lines 41-42), evaluated at
one record of the population `l`. -/
def rank_percentile (l : List UniRecord) (r : UniRecord) : Option ℚ :=
  (pyDiv (r.rank - colMin (·.rank) l) (colMax (·.rank) l - colMin (·.rank) l)).map
    fun q => 100 - q * 100

/-- `df['price_percentile']` (lines 45-46). -/
def price_percentile (l : List UniRecord) (r : UniRecord) : Option ℚ :=
  (pyDiv (r.price_usd - colMin (·.price_usd) l) (colMax (·.price_usd) l - colMin (·.price_usd) l)).map
    fun q => 100 - q * 100

/-- `df['value_score'] = 0.6 * rank_percentile + 0.4 * price_percentile`
(line 49); NaN in either operand propagates. -/
def value_score_of (rp pp : Option ℚ) : Option ℚ :=
  match rp, pp with
  | some a, some b => some (6 / 10 * a + 4 / 10 * b)
  | _, _ => none

/-- The country-specific rank percentile of lines 52-70: the column value
is written only when the country sub-population has more than one row
(`if len(country_data) > 1`); other rows keep NaN. -/
def country_rank_percentile (l : List UniRecord) (c : String) (r : UniRecord) : Option ℚ :=
  let sub := l.filter fun x => x.country == c
  if 1 < sub.length ∧ (r.country == c) = true then rank_percentile sub r else none

/-- `RealSweetSpotAnalyzer.calculate_value_scores` (the overall columns of
lines 40-49).  No statement in the body raises for any input — NumPy turns
the `0/0` of a size-≤-1 population into NaN — so the result is always
`.ok`. -/
def calculate_value_scores (l : List UniRecord) : Except String (List ScoredRecord) :=
  .ok (l.map fun r =>
    let rp := rank_percentile l r
    let pp := price_percentile l r
    { institution := r.institution, country := r.country, rank := r.rank,
      price_usd := r.price_usd, rank_percentile := rp, price_percentile := pp,
      value_score := value_score_of rp pp })

/-- Modelled from the spec: the rank-order percentile formula
`100 * (1 - (rank_position - 1) / (n - 1))` that the specification says
`rank_percentile` computes. -/
def specRankPercentile (n pos : ℕ) : ℚ :=
  100 * (1 - ((pos : ℚ) - 1) / ((n : ℚ) - 1))

/-! ## `compute_similarity_matrix`: TF-IDF cosine similarity

`TfidfVectorizer(analyzer='word', ngram_range=(1,2), min_df=1, max_df=0.8,
stop_words=None)` with scikit-learn defaults: the token pattern
`\b\w\w+\b` (maximal word runs of length ≥ 2), raw counts as tf, smoothed
idf `ln((1+n)/(1+df)) + 1`, l2-normalised rows, then cosine similarity.
The idf involves a logarithm, so this part of the embedding lives in `ℝ`.
-/

/-- Scanner extracting maximal word-character runs; `cur` accumulates the
current run. -/
def wrGo (cur : List Char) : List Char → List (List Char)
  | [] => if cur.isEmpty then [] else [cur]
  | c :: cs =>
    if isWordChar c then wrGo (cur ++ [c]) cs
    else if cur.isEmpty then wrGo [] cs else cur :: wrGo [] cs

/-- The maximal word-character runs of a string. -/
def wordRuns (l : List Char) : List (List Char) := wrGo [] l

/-- scikit-learn's default `token_pattern` `\b\w\w+\b`: maximal word runs
of at least two characters. -/
def sklearnTokens (doc : List Char) : List (List Char) :=
  (wordRuns doc).filter fun t => 2 ≤ t.length

/-- `ngram_range=(1, 2)`: the unigrams followed by the bigrams (adjacent
token pairs joined by a space). -/
def featuresOf (doc : List Char) : List (List Char) :=
  let ts := sklearnTokens doc
  ts ++ (ts.zip ts.tail).map fun p => p.1 ++ ' ' :: p.2

/-- Document frequency of a feature. -/
def docFreq (docs : List (List Char)) (t : List Char) : ℕ :=
  (docs.filter fun d => (featuresOf d).contains t).length

/-- The fitted vocabulary: every feature of the corpus, pruned by
`max_df=0.8` (drop features whose document frequency exceeds 0.8·n_docs;
the float threshold is modelled as the exact rational 4/5, written over
integers).  `min_df=1` holds automatically for extracted features. -/
def vocab (docs : List (List Char)) : List (List Char) :=
  (docs.flatMap featuresOf).dedup.filter fun t => 5 * docFreq docs t ≤ 4 * docs.length

/-- Raw term count of a feature in a document (sklearn's tf). -/
def termCount (doc t : List Char) : ℕ := (featuresOf doc).count t

/-- Smoothed inverse document frequency `ln((1+n)/(1+df)) + 1`
(`smooth_idf=True`). -/
noncomputable def idf (docs : List (List Char)) (t : List Char) : ℝ :=
  Real.log ((1 + (docs.length : ℝ)) / (1 + (docFreq docs t : ℝ))) + 1

/-- Dot product of two documents' (unnormalised) tf-idf rows over the
vocabulary. -/
noncomputable def dotP (docs : List (List Char)) (d1 d2 : List Char) : ℝ :=
  ((vocab docs).map fun t =>
    ((termCount d1 t : ℝ) * idf docs t) * ((termCount d2 t : ℝ) * idf docs t)).sum

/-- Cosine similarity of the two documents' tf-idf rows: the l2
normalisation of the vectorizer followed by `cosine_similarity` is the dot
product divided by the product of norms; a zero row stays zero in sklearn,
matching Lean's `x / 0 = 0` convention. -/
noncomputable def cosineSim (docs : List (List Char)) (d1 d2 : List Char) : ℝ :=
  dotP docs d1 d2 / (Real.sqrt (dotP docs d1 d1) * Real.sqrt (dotP docs d2 d2))

/-! ### The rapidfuzz fallback of the `except` branch -/

/-- Levenshtein distance with insertions and deletions only (the indel
distance underlying `rapidfuzz.fuzz.ratio`). -/
def indelDist : List Char → List Char → ℕ
  | [], b => b.length
  | a :: as, [] => (a :: as).length
  | a :: as, b :: bs =>
    if a = b then indelDist as bs
    else 1 + min (indelDist as (b :: bs)) (indelDist (a :: as) bs)
termination_by a b => a.length + b.length
decreasing_by all_goals simp_arith

/-- `rapidfuzz.fuzz.ratio`: normalised indel similarity scaled to 0-100
(two empty strings give 100). -/
def fuzzScore (s1 s2 : List Char) : ℚ :=
  if s1.length + s2.length = 0 then 100
  else ((s1.length + s2.length - indelDist s1 s2 : ℕ) : ℚ)
    / ((s1.length + s2.length : ℕ) : ℚ) * 100

/-- The token-sort normal form: whitespace tokens sorted and joined by
single spaces. -/
def tokenSortKey (s : List Char) : List Char :=
  joinTokens (List.insertionSort tokLE (splitTokens s))

/-- `rapidfuzz.fuzz.token_sort_ratio`. -/
def token_sort_score (s1 s2 : List Char) : ℚ :=
  fuzzScore (tokenSortKey s1) (tokenSortKey s2)

/-- The valid canonical names of one side:
`[(i, canon) for i, canon in enumerate(...) if canon]` (lines 135-136),
keeping just the names (the indices are recovered by the guards below). -/
def validCanon (names : List String) : List String :=
  (names.map canonicalize_name).filter fun s => !(s == "")

/-- `all_texts` (line 146): the valid canonical names of side A followed
by those of side B. -/
def corpusOf {n m : ℕ} (namesA : Fin n → String) (namesB : Fin m → String) :
    List (List Char) :=
  (validCanon ((List.finRange n).map namesA)
    ++ validCanon ((List.finRange m).map namesB)).map String.data

/-- `StrictUniversityMatcher.compute_similarity_matrix`.  The code
canonicalises both name lists, drops empty canonical names, returns an
all-zero matrix if either valid list is empty (lines 138-139), otherwise
fits the vectorizer on the concatenated valid corpus and scatters
`cosine_similarity * 100` into the zeros-initialised matrix at the valid
index pairs only (lines 142-166) — so a cell keeps its initial `0` exactly
when either canonical name is empty; if the vectorizer raises (empty
vocabulary, possible when every canonical name is a single character), the
`except` branch (lines 168-174) fills the valid cells with
`fuzz.token_sort_ratio` instead. -/
noncomputable def compute_similarity_matrix {n m : ℕ}
    (namesA : Fin n → String) (namesB : Fin m → String) : Fin n → Fin m → ℝ :=
  fun i j =>
    if (validCanon ((List.finRange n).map namesA)).isEmpty
        || (validCanon ((List.finRange m).map namesB)).isEmpty then 0
    else if (vocab (corpusOf namesA namesB)).isEmpty then
      (if canonicalize_name (namesA i) ≠ "" ∧ canonicalize_name (namesB j) ≠ "" then
        ((token_sort_score (canonicalize_name (namesA i)).data
          (canonicalize_name (namesB j)).data : ℚ) : ℝ)
      else 0)
    else
      (if canonicalize_name (namesA i) ≠ "" ∧ canonicalize_name (namesB j) ≠ "" then
        100 * cosineSim (corpusOf namesA namesB) (canonicalize_name (namesA i)).data
          (canonicalize_name (namesB j)).data
      else 0)

/-! ## `match_universities`: the full resolver

`self.arwu_rankings` is the fixed table of `__init__` (name, rank, score);
the scorecard side is the caller's dataframe. -/

/-- The `self.arwu_rankings` dict (insertion order). -/
def arwuTable : List (String × ℕ × ℚ) :=
  [("Harvard University", 1, 100.0),
   ("Stanford University", 2, 76.3),
   ("Massachusetts Institute of Technology", 3, 75.4),
   ("University of California, Berkeley", 4, 68.9),
   ("University of Cambridge", 5, 67.2),
   ("Princeton University", 6, 66.7),
   ("Columbia University", 7, 60.4),
   ("California Institute of Technology", 8, 59.5),
   ("University of Chicago", 9, 56.5),
   ("Yale University", 10, 54.1),
   ("Cornell University", 11, 52.8),
   ("University of California, Los Angeles", 12, 51.9),
   ("University of Pennsylvania", 13, 48.4),
   ("Johns Hopkins University", 14, 47.8),
   ("University of California, San Francisco", 15, 46.2),
   ("University of Oxford", 16, 45.4),
   ("University of Michigan, Ann Arbor", 17, 44.9),
   ("University College London", 18, 43.2),
   ("University of California, San Diego", 19, 42.1),
   ("University of Washington", 20, 41.8),
   ("New York University", 22, 40.2),
   ("Imperial College London", 23, 39.8),
   ("Northwestern University", 24, 39.1),
   ("University of Wisconsin - Madison", 25, 38.7),
   ("University of Illinois at Urbana-Champaign", 27, 37.9),
   ("Duke University", 28, 37.5),
   ("University of North Carolina at Chapel Hill", 32, 35.9),
   ("King's College London", 33, 35.6),
   ("University of Colorado at Boulder", 34, 35.2),
   ("Carnegie Mellon University", 35, 34.8),
   ("University of Edinburgh", 36, 34.5),
   ("University of Texas at Austin", 38, 33.8),
   ("Boston University", 40, 33.2),
   ("University of Manchester", 41, 32.9),
   ("University of California, Davis", 42, 32.5),
   ("University of California, Santa Barbara", 43, 32.2),
   ("University of California, Irvine", 48, 30.6),
   ("University of Southern California", 46, 31.2),
   ("University of Bristol", 51, 29.1),
   ("Ohio State University", 52, 28.8),
   ("University of Pittsburgh", 53, 28.5),
   ("Rice University", 61, 26.1),
   ("Arizona State University", 63, 25.5),
   ("Pennsylvania State University", 65, 24.9),
   ("University of Virginia", 66, 24.6),
   ("Purdue University", 68, 24.0),
   ("University of California, Riverside", 69, 23.7),
   ("Georgia Institute of Technology", 72, 22.8),
   ("Michigan State University", 73, 22.5),
   ("University of Iowa", 75, 21.9),
   ("London School of Economics and Political Science", 76, 24.3),
   ("University of Glasgow", 101, 21.2),
   ("University of Birmingham", 151, 18.5),
   ("University of Leeds", 151, 18.4),
   ("University of Liverpool", 151, 18.1),
   ("University of Nottingham", 151, 18.0),
   ("University of Sheffield", 151, 17.9),
   ("University of Southampton", 151, 17.8)]

/-- `arwu_names = list(self.arwu_rankings.keys())`. -/
def arwuNames : Fin arwuTable.length → String := fun i => (arwuTable.get i).1

/-- A row of the scorecard dataframe passed to `match_universities`
(missing tuition values are NaN, modelled `none`). -/
structure ScRow where
  school_name : String
  tuition_in_state : Option ℚ
  tuition_out_state : Option ℚ
  total_cost : Option ℚ
deriving DecidableEq

/-- A row of the dataframe returned by `match_universities`
(lines 250-266). -/
structure MatchedRow where
  institution : String
  country : String
  arwu_rank : ℕ
  arwu_score : ℚ
  tuition_in_state_usd : Option ℚ
  tuition_out_state_usd : Option ℚ
  total_cost_usd : Option ℚ
  price_usd : Option ℚ
  match_similarity : ℝ

/-- The keys of each `match` dict built at lines 231-238. -/
def matchDictKeys : List String :=
  ["arwu_name", "arwu_rank", "arwu_score", "scorecard_name",
   "scorecard_index", "similarity_score"]

/-- The accepted index pairs of `match_universities` for a given scorecard
frame: similarity matrix of the fixed ARWU names against the scorecard
names, then the assignment-and-filter stage. -/
noncomputable def scorecardPairs {m : ℕ} (sc : Fin m → ScRow) :
    List (Fin arwuTable.length × Fin m) :=
  matchFromSimilarity (compute_similarity_matrix arwuNames fun j => (sc j).school_name)

/-- `StrictUniversityMatcher.match_universities`: the returned dataframe,
one row per accepted pair (lines 250-266).  `country` is
`'United States' if 'scorecard_index' in match else 'United Kingdom'`,
where `match` is a dict with the fixed keys of lines 231-238;
`price_usd` uses `scorecard_row.get('tuition_out_state', ...)`, whose
default is dead because the column exists. -/
noncomputable def match_universities {m : ℕ} (sc : Fin m → ScRow) : List MatchedRow :=
  (scorecardPairs sc).map fun p =>
    { institution := (arwuTable.get p.1).1
      country := if "scorecard_index" ∈ matchDictKeys then "United States" else "United Kingdom"
      arwu_rank := (arwuTable.get p.1).2.1
      arwu_score := (arwuTable.get p.1).2.2
      tuition_in_state_usd := (sc p.2).tuition_in_state
      tuition_out_state_usd := (sc p.2).tuition_out_state
      total_cost_usd := (sc p.2).total_cost
      price_usd := (sc p.2).tuition_out_state
      match_similarity :=
        compute_similarity_matrix arwuNames (fun j => (sc j).school_name) p.1 p.2 }

/-- The scorecard indices not appearing in any accepted pair (as bare
naturals, so that populations of different sizes can be compared). -/
noncomputable def unmatched_scorecard {m : ℕ} (sc : Fin m → ScRow) : List ℕ :=
  ((List.finRange m).filter fun j => (scorecardPairs sc).all fun p => !(p.2 == j)).map Fin.val

/-- The unmatched ARWU names (the code computes these at line 245 and only
logs them). -/
noncomputable def unmatched_arwu {m : ℕ} (sc : Fin m → ScRow) : List String :=
  ((List.finRange arwuTable.length).filter fun i =>
    (scorecardPairs sc).all fun p => !(p.1 == i)).map arwuNames

/-! ## Concrete inputs used by witnesses and counterexamples -/

/-- Three-record population whose raw ranks `1, 2, 100` are not uniformly
spaced. -/
def popC4 : List UniRecord :=
  [⟨"A", "United States", 1, 10⟩, ⟨"B", "United States", 2, 20⟩,
   ⟨"C", "United States", 100, 30⟩]

/-- Two-record population with distinct ranks. -/
def popW4 : List UniRecord :=
  [⟨"A", "United States", 1, 10⟩, ⟨"B", "United States", 3, 30⟩]

/-- A population of size 1. -/
def popC5 : List UniRecord := [⟨"Solo", "United States", 5, 1000⟩]

/-- A one-row scorecard frame whose name canonicalises to the empty
string (`"University"` is a stop word). -/
def scA : Fin 1 → ScRow := fun _ => ⟨"University", none, none, none⟩

/-- A two-row scorecard frame, both names canonicalising to the empty
string. -/
def scB : Fin 2 → ScRow :=
  ![⟨"University", none, none, none⟩, ⟨"College", none, none, none⟩]

/-- A one-name list whose only name canonicalises to the empty string. -/
def namesU : Fin 1 → String := fun _ => "University"

/-- Source A of the end-to-end scenario of the specification. -/
def namesHA : Fin 2 → String := !["Harvard University", "MIT"]

/-- Source B of the end-to-end scenario of the specification. -/
def namesHB : Fin 2 → String := !["Harvard Univ.", "Massachusetts Institute of Technology"]

/-! ## Helper lemmas -/

theorem listArgmin_mem {α β : Type} [LinearOrder α] {f : β → α} :
    ∀ {l : List β} {b : β}, listArgmin f l = some b → b ∈ l := by
  intro l
  induction l with
  | nil => intro b h; simp [listArgmin] at h
  | cons x xs ih =>
    intro b h
    rw [listArgmin] at h
    rcases hx : listArgmin f xs with - | a <;> simp only [hx] at h
    · simp only [Option.some.injEq] at h
      simp [h]
    · split at h
      · injection h with h
        exact h ▸ List.mem_cons_of_mem _ (ih hx)
      · injection h with h
        exact h ▸ List.mem_cons_self _ _

theorem injSeqs_mem {γ : Type} [DecidableEq γ] :
    ∀ (k : ℕ) (pool : List γ) (c : List γ), c ∈ injSeqs pool k → pool.Nodup →
      c.Nodup ∧ ∀ x ∈ c, x ∈ pool := by
  intro k
  induction k with
  | zero =>
    intro pool c hc _
    simp [injSeqs] at hc
    subst hc
    simp
  | succ k ih =>
    intro pool c hc hpool
    simp only [injSeqs, List.mem_flatMap, List.mem_map] at hc
    obtain ⟨x, hx, t, ht, rfl⟩ := hc
    obtain ⟨htn, hsub⟩ := ih (pool.erase x) t ht (hpool.erase x)
    refine ⟨List.nodup_cons.2 ⟨fun hxc => ?_, htn⟩, ?_⟩
    · exact ((hpool.mem_erase_iff).1 (hsub x hxc)).1 rfl
    · intro y hy
      rcases List.mem_cons.1 hy with rfl | hy
      · exact hx
      · exact (List.erase_sublist _ _).subset (hsub y hy)

theorem pairwise_ne_zip {γ δ : Type} :
    ∀ (l₁ : List γ) (l₂ : List δ), l₁.Nodup → l₂.Nodup →
      List.Pairwise (fun p q : γ × δ => p.1 ≠ q.1 ∧ p.2 ≠ q.2) (l₁.zip l₂) := by
  intro l₁
  induction l₁ with
  | nil => intro l₂ _ _; simp
  | cons a l₁ ih =>
    intro l₂ h₁ h₂
    cases l₂ with
    | nil => simp
    | cons b l₂ =>
      rw [List.zip_cons_cons, List.pairwise_cons]
      refine ⟨?_, ih l₂ (List.nodup_cons.1 h₁).2 (List.nodup_cons.1 h₂).2⟩
      intro p hp
      have hmem := List.of_mem_zip hp
      constructor
      · intro h
        have ha : a = p.1 := h
        exact (List.nodup_cons.1 h₁).1 (by rw [ha]; exact hmem.1)
      · intro h
        have hb : b = p.2 := h
        exact (List.nodup_cons.1 h₂).1 (by rw [hb]; exact hmem.2)

/-- The assignment stage always returns pairwise-distinct rows and
columns: it is obtained by zipping two duplicate-free index lists. -/
theorem linear_sum_assignment_pairwise {α : Type} [LinearOrderedCommRing α] {n m : ℕ}
    (sim : Fin n → Fin m → α) :
    List.Pairwise (fun p q : Fin n × Fin m => p.1 ≠ q.1 ∧ p.2 ≠ q.2)
      (linear_sum_assignment sim) := by
  rw [linear_sum_assignment]
  by_cases h : n ≤ m
  · rw [if_pos h]
    rcases hc : listArgmin _ (injSeqs (List.finRange m) n) with - | c
    · simp
    · have hmem := listArgmin_mem hc
      have hin := injSeqs_mem n (List.finRange m) c hmem (List.nodup_finRange m)
      exact pairwise_ne_zip _ _ (List.nodup_finRange n) hin.1
  · rw [if_neg h]
    rcases hc : listArgmin _ (injSeqs (List.finRange n) m) with - | c
    · simp
    · have hmem := listArgmin_mem hc
      have hin := injSeqs_mem m (List.finRange n) c hmem (List.nodup_finRange n)
      exact pairwise_ne_zip _ _ hin.1 (List.nodup_finRange m)

/-- If every similarity is zero, the final `>= MIN_SIMILARITY` filter
rejects every assigned pair. -/
theorem matchFromSimilarity_eq_nil_of_zero {α : Type} [LinearOrderedCommRing α] {n m : ℕ}
    (sim : Fin n → Fin m → α) (h : ∀ i j, sim i j = 0) :
    matchFromSimilarity sim = [] := by
  rw [matchFromSimilarity, List.filter_eq_nil_iff]
  intro p _
  rw [h p.1 p.2]
  simp

/-- If every scorecard name canonicalises to the empty string, the valid
list of side B is empty and the guard of lines 138-139 returns the all-zero
matrix. -/
theorem compute_sim_zero_of_no_validB {n m : ℕ} (namesA : Fin n → String) (namesB : Fin m → String)
    (h : validCanon ((List.finRange m).map namesB) = [])
    (i : Fin n) (j : Fin m) :
    compute_similarity_matrix namesA namesB i j = 0 := by
  simp only [compute_similarity_matrix]
  rw [h]
  simp

/-! ## Claims -/

/-- C1: the claimed invariant — every accepted pair has similarity ≥ 90
AND gap ≥ 5 on its row, and pairs from zeroed-out rows are never reported
— fails on the code.  At the similarity matrix `[[95, 93], [96, 0]]`, row 0
(best 95, second-best 93) fails the gap rule and is zeroed out, yet the
unique cost-minimising assignment puts row 0 on column 1, and the final
filter (line 229) re-reads the ORIGINAL similarity `93 ≥ 90`, so the pair
`(0, 1)` from the ineligible row is reported as a match. -/
theorem c1_gap_rule_bug :
    matchFromSimilarity (α := ℤ) ![![95, 93], ![96, 0]] = [(0, 1), (1, 0)]
    ∧ rowKept (α := ℤ) ![![95, 93], ![96, 0]] 0 = false
    ∧ apply_gap_rule (α := ℤ) (rowValues ![![95, 93], ![96, 0]] 0) = false
    ∧ (90 : ℤ) ≤ ![![95, 93], ![96, 0]] 0 1 := by decide

/-- C3: for every similarity matrix, the assignment returned by
`match_universities` is one-to-one — no A-side row index and no B-side
column index appears in more than one accepted pair. -/
theorem c3_one_to_one {α : Type} [LinearOrderedCommRing α] {n m : ℕ}
    (sim : Fin n → Fin m → α) :
    List.Pairwise (fun p q : Fin n × Fin m => p.1 ≠ q.1 ∧ p.2 ≠ q.2)
      (matchFromSimilarity sim) := by
  rw [matchFromSimilarity]
  exact List.Pairwise.sublist (List.filter_sublist _) (linear_sum_assignment_pairwise sim)

/-- C8: on a degenerate (all-zero) similarity matrix the resolver returns
the empty assignment (and, being a total function, does not raise). -/
theorem c8_degenerate_empty {α : Type} [LinearOrderedCommRing α] {n m : ℕ}
    (sim : Fin n → Fin m → α) (h : ∀ i j, sim i j = 0) :
    matchFromSimilarity sim = [] :=
  matchFromSimilarity_eq_nil_of_zero sim h

/-- Witness for C8 at a concrete all-zero 2×2 matrix. -/
theorem c8_degenerate_empty_witness :
    matchFromSimilarity (fun _ _ => (0 : ℤ) : Fin 2 → Fin 2 → ℤ) = [] :=
  c8_degenerate_empty _ fun _ _ => rfl

/-- C10: each `match` dict is built with the fixed keys of lines 231-238,
so `'scorecard_index' in match` always holds and every returned row has
`country = 'United States'`; the `'United Kingdom'` branch is unreachable. -/
theorem c10_country_always_us :
    "scorecard_index" ∈ matchDictKeys
    ∧ ∀ (m : ℕ) (sc : Fin m → ScRow),
        ((match_universities sc).map fun r => r.country).all
          (fun s => s == "United States") = true := by
  refine ⟨by decide, ?_⟩
  intro m sc
  rw [match_universities, List.map_map, List.all_eq_true]
  intro s hs
  simp only [List.mem_map, Function.comp] at hs
  obtain ⟨p, -, rfl⟩ := hs
  rw [if_pos (by decide : "scorecard_index" ∈ matchDictKeys)]
  rfl

/-- C9 (counterexample): the resolver's return value does not contain the
unmatched index sets — two scorecard frames with different unmatched
column sets produce the identical output dataframe, so the unmatched sets
are not recoverable from (hence not part of) the output. -/
theorem c9_unmatched_not_returned :
    match_universities scA = match_universities scB
    ∧ unmatched_scorecard scA ≠ unmatched_scorecard scB := by
  have hA : ∀ i j, compute_similarity_matrix arwuNames (fun j => (scA j).school_name) i j = 0 :=
    compute_sim_zero_of_no_validB _ _ (by decide)
  have hB : ∀ i j, compute_similarity_matrix arwuNames (fun j => (scB j).school_name) i j = 0 :=
    compute_sim_zero_of_no_validB _ _ (by decide)
  have pA : scorecardPairs scA = [] := by
    rw [scorecardPairs]; exact matchFromSimilarity_eq_nil_of_zero _ hA
  have pB : scorecardPairs scB = [] := by
    rw [scorecardPairs]; exact matchFromSimilarity_eq_nil_of_zero _ hB
  constructor
  · rw [match_universities, match_universities, pA, pB]
    simp
  · rw [unmatched_scorecard, unmatched_scorecard, pA, pB]
    decide

/-- C9 (amended): the returned dataframe consists of exactly one row per
accepted pair — the accepted matches' data and nothing else; the unmatched
index sets are not part of the return value (they are only logged). -/
theorem c9_output_is_matches_only :
    ∀ (m : ℕ) (sc : Fin m → ScRow),
      (match_universities sc).map (fun r => r.institution)
        = (scorecardPairs sc).map (fun p => arwuNames p.1)
      ∧ (match_universities sc).length = (scorecardPairs sc).length := by
  intro m sc
  constructor
  · rw [match_universities, List.map_map]
    rfl
  · rw [match_universities, List.length_map]

theorem foldl_min_le_init (f : UniRecord → ℚ) :
    ∀ (rs : List UniRecord) (a : ℚ), rs.foldl (fun x y => min x (f y)) a ≤ a := by
  intro rs
  induction rs with
  | nil => simp
  | cons x xs ih =>
    intro a
    exact le_trans (ih (min a (f x))) (min_le_left _ _)

theorem init_le_foldl_max (f : UniRecord → ℚ) :
    ∀ (rs : List UniRecord) (a : ℚ), a ≤ rs.foldl (fun x y => max x (f y)) a := by
  intro rs
  induction rs with
  | nil => simp
  | cons x xs ih =>
    intro a
    exact le_trans (le_max_left _ _) (ih (max a (f x)))

theorem colMin_le_colMax (f : UniRecord → ℚ) (l : List UniRecord) :
    colMin f l ≤ colMax f l := by
  cases l with
  | nil => simp [colMin, colMax]
  | cons r rs =>
    exact le_trans (foldl_min_le_init f rs (f r)) (init_le_foldl_max f rs (f r))

/-- C4 (counterexample): at ranks `1, 2, 100` the code's `rank_percentile`
of the middle record is `100 - (2-1)/(100-1)·100 = 9800/99 ≈ 98.99`
(min-max scaling of the raw rank magnitude), while the position-based
formula of the claim gives `100·(1 - (2-1)/(3-1)) = 50`. -/
theorem c4_raw_magnitude_counterexample :
    rank_percentile popC4 ⟨"B", "United States", 2, 20⟩ = some (9800 / 99)
    ∧ specRankPercentile 3 2 = 50
    ∧ (9800 / 99 : ℚ) ≠ 50 := by
  refine ⟨?_, ?_, by norm_num⟩
  · simp only [rank_percentile, popC4, colMin, colMax, pyDiv, List.foldl_cons, List.foldl_nil]
    norm_num [min_def, max_def]
  · rw [specRankPercentile]
    norm_num

/-- C4 (amended): `rank_percentile` is the min-max scaling
`100 - (rank - min)/(max - min) · 100` of the raw rank value; records of
equal rank receive equal percentiles, and the percentile is antitone in
the raw rank. -/
theorem c4_minmax_scaling (l : List UniRecord)
    (h : colMin (fun r => r.rank) l ≠ colMax (fun r => r.rank) l) :
    (∀ r ∈ l, rank_percentile l r =
        some (100 - (r.rank - colMin (fun r => r.rank) l)
          / (colMax (fun r => r.rank) l - colMin (fun r => r.rank) l) * 100))
    ∧ (∀ r r' : UniRecord, r.rank = r'.rank → rank_percentile l r = rank_percentile l r')
    ∧ ∀ r r' : UniRecord, r.rank ≤ r'.rank →
        ∀ a b : ℚ, rank_percentile l r = some a → rank_percentile l r' = some b → b ≤ a := by
  have hD : (0 : ℚ) < colMax (fun r => r.rank) l - colMin (fun r => r.rank) l :=
    sub_pos.2 (lt_of_le_of_ne (colMin_le_colMax _ l) h)
  have hd : colMax (fun r => r.rank) l - colMin (fun r => r.rank) l ≠ 0 := ne_of_gt hD
  refine ⟨?_, ?_, ?_⟩
  · intro r _
    simp [rank_percentile, pyDiv, hd]
  · intro r r' he
    rw [rank_percentile, rank_percentile, he]
  · intro r r' hle a b ha hb
    simp [rank_percentile, pyDiv, hd] at ha hb
    rw [← ha, ← hb]
    have h1 : r.rank - colMin (fun r => r.rank) l ≤ r'.rank - colMin (fun r => r.rank) l :=
      sub_le_sub_right hle _
    have h2 : (r.rank - colMin (fun r => r.rank) l)
          / (colMax (fun r => r.rank) l - colMin (fun r => r.rank) l)
        ≤ (r'.rank - colMin (fun r => r.rank) l)
          / (colMax (fun r => r.rank) l - colMin (fun r => r.rank) l) := by gcongr
    nlinarith [h2]

/-- Witness for C4 (amended) at the two-record population with ranks 1, 3. -/
theorem c4_minmax_scaling_witness :
    colMin (fun r => r.rank) popW4 ≠ colMax (fun r => r.rank) popW4
    ∧ ((∀ r ∈ popW4, rank_percentile popW4 r =
          some (100 - (r.rank - colMin (fun r => r.rank) popW4)
            / (colMax (fun r => r.rank) popW4 - colMin (fun r => r.rank) popW4) * 100))
      ∧ (∀ r r' : UniRecord, r.rank = r'.rank →
          rank_percentile popW4 r = rank_percentile popW4 r')
      ∧ ∀ r r' : UniRecord, r.rank ≤ r'.rank →
          ∀ a b : ℚ, rank_percentile popW4 r = some a →
            rank_percentile popW4 r' = some b → b ≤ a) := by
  have hne : colMin (fun r => r.rank) popW4 ≠ colMax (fun r => r.rank) popW4 := by
    simp only [popW4, colMin, colMax, List.foldl_cons, List.foldl_nil]
    norm_num [min_def, max_def]
  exact ⟨hne, c4_minmax_scaling popW4 hne⟩

/-- C5 (counterexample): on a population of size 1 the percentile
computation does not fail — it returns an ordinary row whose percentile
columns are NaN (the `0/0` of the min-max scaling), with no
`InsufficientPopulation` condition anywhere. -/
theorem c5_size_one_returns_nan :
    calculate_value_scores popC5
      = Except.ok [{ institution := "Solo", country := "United States", rank := 5,
                     price_usd := 1000, rank_percentile := none,
                     price_percentile := none, value_score := none }] := by
  simp [calculate_value_scores, popC5, rank_percentile, price_percentile,
    value_score_of, pyDiv, colMin, colMax]

/-- C5 (amended): for every population of size ≤ 1 the computation
returns successfully; every returned row has NaN rank percentile, price
percentile and value score (never a numeric value such as 50 or 100), and
the country-specific percentile columns of lines 52-70 are likewise left
NaN because of the `len(country_data) > 1` guard. -/
theorem c5_small_population_nan (l : List UniRecord) (h : l.length ≤ 1) :
    ∃ out, calculate_value_scores l = Except.ok out
      ∧ (∀ r ∈ out, r.rank_percentile = none ∧ r.price_percentile = none ∧ r.value_score = none)
      ∧ ∀ (c : String) (r : UniRecord), country_rank_percentile l c r = none := by
  cases l with
  | nil =>
    refine ⟨[], rfl, by simp, ?_⟩
    intro c r
    rw [country_rank_percentile]
    simp
  | cons r rs =>
    cases rs with
    | nil =>
      refine ⟨_, rfl, ?_, ?_⟩
      · intro x hx
        simp only [calculate_value_scores, List.map_cons, List.map_nil,
          List.mem_singleton] at hx
        subst hx
        simp [rank_percentile, price_percentile, value_score_of, pyDiv, colMin, colMax]
      · intro c x
        rw [country_rank_percentile]
        rw [if_neg]
        intro hcon
        have hlen := List.length_filter_le (fun x => x.country == c) [r]
        simp at hlen
        omega
    | cons r2 rs2 => simp at h

/-- Witness for C5 (amended) at the singleton population. -/
theorem c5_small_population_nan_witness :
    popC5.length ≤ 1
    ∧ ∃ out, calculate_value_scores popC5 = Except.ok out
      ∧ (∀ r ∈ out, r.rank_percentile = none ∧ r.price_percentile = none ∧ r.value_score = none)
      ∧ ∀ (c : String) (r : UniRecord), country_rank_percentile popC5 c r = none :=
  ⟨by decide, c5_small_population_nan popC5 (by decide)⟩

/-! ## TF-IDF facts needed for the end-to-end scenario -/

theorem idf_pos (docs : List (List Char)) (t : List Char) : 0 < idf docs t := by
  rw [idf]
  have hdf : (docFreq docs t : ℝ) ≤ (docs.length : ℝ) := by
    exact_mod_cast Nat.cast_le.2 (List.length_filter_le _ _)
  have h1 : (1 : ℝ) ≤ (1 + (docs.length : ℝ)) / (1 + (docFreq docs t : ℝ)) := by
    rw [le_div_iff₀ (by positivity)]
    linarith
  linarith [Real.log_nonneg h1]

theorem dotP_self_nonneg (docs : List (List Char)) (d : List Char) :
    0 ≤ dotP docs d d := by
  rw [dotP]
  apply List.sum_nonneg
  intro x hx
  simp only [List.mem_map] at hx
  obtain ⟨t, -, rfl⟩ := hx
  exact mul_self_nonneg _

theorem dotP_self_pos (docs : List (List Char)) (d t : List Char)
    (ht : t ∈ vocab docs) (htc : termCount d t ≠ 0) : 0 < dotP docs d d := by
  have hterm : (0 : ℝ) < ((termCount d t : ℝ) * idf docs t) * ((termCount d t : ℝ) * idf docs t) := by
    have h1 : (0 : ℝ) < (termCount d t : ℝ) :=
      Nat.cast_pos.2 (Nat.pos_of_ne_zero htc)
    have h2 := idf_pos docs t
    positivity
  rw [dotP]
  refine lt_of_lt_of_le hterm (List.single_le_sum ?_ _ (List.mem_map_of_mem _ ht))
  intro x hx
  simp only [List.mem_map] at hx
  obtain ⟨u, -, rfl⟩ := hx
  exact mul_self_nonneg _

theorem dotP_eq_zero (docs : List (List Char)) (d1 d2 : List Char)
    (h : ∀ t ∈ vocab docs, termCount d1 t = 0 ∨ termCount d2 t = 0) :
    dotP docs d1 d2 = 0 := by
  rw [dotP]
  apply List.sum_eq_zero
  intro x hx
  simp only [List.mem_map] at hx
  obtain ⟨t, ht, rfl⟩ := hx
  rcases h t ht with h0 | h0 <;> rw [h0] <;> simp

/-- Identical documents have cosine similarity 1 (their tf-idf rows are
the same nonzero vector). -/
theorem cosineSim_self_eq_one (docs : List (List Char)) (d : List Char)
    (h : 0 < dotP docs d d) : cosineSim docs d d = 1 := by
  rw [cosineSim, Real.mul_self_sqrt (le_of_lt h)]
  exact div_self (ne_of_gt h)

/-- Documents with no common vocabulary feature have cosine similarity 0. -/
theorem cosineSim_eq_zero (docs : List (List Char)) (d1 d2 : List Char)
    (h : dotP docs d1 d2 = 0) : cosineSim docs d1 d2 = 0 := by
  rw [cosineSim, h, zero_div]

/-! ## Order-embedding invariance of the matching stage

The matching stage uses only ordered-ring structure (comparisons with the
constants 0, 5, 90, 100, subtraction, maxima, sorting, and cost-sum
minimisation), so a strictly monotone ring homomorphism applied entrywise
to the similarity matrix does not change the accepted pairs.  This lets
the concrete end-to-end scenario be evaluated in `ℤ` by `decide` after the
real similarity matrix is shown to be the cast of an integer matrix. -/

section Cast

variable {α β : Type} [LinearOrderedCommRing α] [LinearOrderedCommRing β]

theorem foldl_maximum_map (f : α →+* β) (hf : StrictMono f) :
    ∀ (l : List α) (acc : Option α),
      List.foldl (fun acc x =>
          match acc with
          | none => some x
          | some a => some (max a x)) (acc.map f) (l.map f)
        = (List.foldl (fun acc x =>
            match acc with
            | none => some x
            | some a => some (max a x)) acc l).map f := by
  intro l
  induction l with
  | nil => intro acc; rfl
  | cons x xs ih =>
    intro acc
    rw [List.map_cons, List.foldl_cons, List.foldl_cons]
    cases acc with
    | none => exact ih (some x)
    | some a =>
      have hmx : max (f a) (f x) = f (max a x) := (hf.monotone.map_max).symm
      simp only [Option.map_some']
      rw [hmx]
      exact ih (some (max a x))

theorem listMaximum_map (f : α →+* β) (hf : StrictMono f) (l : List α) :
    listMaximum (l.map f) = (listMaximum l).map f := by
  rw [listMaximum, listMaximum]
  exact foldl_maximum_map f hf l none

theorem rowValues_map (f : α →+* β) {n m : ℕ} (sim : Fin n → Fin m → α) (i : Fin n) :
    rowValues (fun i j => f (sim i j)) i = (rowValues sim i).map f := by
  rw [rowValues, rowValues, List.map_map]
  rfl

theorem best_score_map (f : α →+* β) (hf : StrictMono f) {n m : ℕ}
    (sim : Fin n → Fin m → α) (i : Fin n) :
    best_score (fun i j => f (sim i j)) i = f (best_score sim i) := by
  rw [best_score, best_score, rowValues_map f, listMaximum_map f hf]
  cases listMaximum (rowValues sim i) with
  | none => simp
  | some a => simp

theorem orderedInsert_map {γ δ : Type} (r : γ → γ → Prop) (r' : δ → δ → Prop)
    [DecidableRel r] [DecidableRel r'] (g : γ → δ)
    (hg : ∀ a b, r' (g a) (g b) ↔ r a b) (a : γ) :
    ∀ l : List γ, List.orderedInsert r' (g a) (l.map g) = (List.orderedInsert r a l).map g := by
  intro l
  induction l with
  | nil => rfl
  | cons b bs ih =>
    rw [List.map_cons, List.orderedInsert, List.orderedInsert]
    by_cases h : r a b
    · rw [if_pos ((hg a b).2 h), if_pos h, List.map_cons, List.map_cons]
    · rw [if_neg (fun hh => h ((hg a b).1 hh)), if_neg h, List.map_cons, ih]

theorem insertionSort_map {γ δ : Type} (r : γ → γ → Prop) (r' : δ → δ → Prop)
    [DecidableRel r] [DecidableRel r'] (g : γ → δ)
    (hg : ∀ a b, r' (g a) (g b) ↔ r a b) :
    ∀ l : List γ, List.insertionSort r' (l.map g) = (List.insertionSort r l).map g := by
  intro l
  induction l with
  | nil => rfl
  | cons b bs ih =>
    rw [List.map_cons, List.insertionSort, List.insertionSort, ih,
      orderedInsert_map r r' g hg]

theorem apply_gap_rule_map (f : α →+* β) (hf : StrictMono f) (row : List α) :
    apply_gap_rule (row.map f) = apply_gap_rule row := by
  rw [apply_gap_rule, apply_gap_rule,
    insertionSort_map (fun a b : α => b ≤ a) (fun a b : β => b ≤ a) f
      (fun a b => hf.le_iff_le) row]
  cases List.insertionSort (fun a b : α => b ≤ a) row with
  | nil => rfl
  | cons s0 t =>
    cases t with
    | nil => rfl
    | cons s1 t2 =>
      simp only [List.map_cons]
      rw [decide_eq_decide, ← map_sub,
        show ((5 : β)) = f 5 from (map_ofNat f 5).symm]
      exact hf.le_iff_le

theorem rowKept_map (f : α →+* β) (hf : StrictMono f) {n m : ℕ}
    (sim : Fin n → Fin m → α) (i : Fin n) :
    rowKept (fun i j => f (sim i j)) i = rowKept sim i := by
  rw [rowKept, rowKept, best_score_map f hf, rowValues_map f, apply_gap_rule_map f hf]
  congr 1
  rw [decide_eq_decide, show ((90 : β)) = f 90 from (map_ofNat f 90).symm]
  exact hf.le_iff_le

theorem cost_matrix_map (f : α →+* β) (hf : StrictMono f) {n m : ℕ}
    (sim : Fin n → Fin m → α) (i : Fin n) (j : Fin m) :
    cost_matrix (fun i j => f (sim i j)) i j = f (cost_matrix sim i j) := by
  rw [cost_matrix, cost_matrix, filtered_matrix, filtered_matrix, rowKept_map f hf]
  by_cases h : rowKept sim i
  · rw [if_pos h, if_pos h, map_sub, map_ofNat]
  · rw [if_neg h, if_neg h, map_sub, map_ofNat, map_zero]

theorem listArgmin_comp {γ δ ε : Type} [LinearOrder δ] [LinearOrder ε]
    (g : γ → δ) (h : δ → ε) (hh : StrictMono h) :
    ∀ l : List γ, listArgmin (fun c => h (g c)) l = listArgmin g l := by
  intro l
  induction l with
  | nil => rfl
  | cons b bs ih =>
    rw [listArgmin, listArgmin, ih]
    cases listArgmin g bs with
    | none => rfl
    | some a =>
      dsimp only
      by_cases hlt : g a < g b
      · rw [if_pos hlt, if_pos (hh.lt_iff_lt.2 hlt)]
      · rw [if_neg hlt, if_neg (fun c => hlt (hh.lt_iff_lt.1 c))]

theorem linear_sum_assignment_map (f : α →+* β) (hf : StrictMono f) {n m : ℕ}
    (sim : Fin n → Fin m → α) :
    linear_sum_assignment (fun i j => f (sim i j)) = linear_sum_assignment sim := by
  rw [linear_sum_assignment, linear_sum_assignment]
  by_cases hnm : n ≤ m
  · rw [if_pos hnm, if_pos hnm]
    have hcost : (fun c : List (Fin m) =>
          (((List.finRange n).zip c).map fun p =>
            cost_matrix (fun i j => f (sim i j)) p.1 p.2).sum)
        = fun c : List (Fin m) =>
            f ((((List.finRange n).zip c).map fun p => cost_matrix sim p.1 p.2).sum) := by
      funext c
      rw [map_list_sum, List.map_map]
      simp only [Function.comp_def, cost_matrix_map f hf]
    rw [hcost, listArgmin_comp _ f hf]
  · rw [if_neg hnm, if_neg hnm]
    have hcost : (fun c : List (Fin n) =>
          ((c.zip (List.finRange m)).map fun p =>
            cost_matrix (fun i j => f (sim i j)) p.1 p.2).sum)
        = fun c : List (Fin n) =>
            f (((c.zip (List.finRange m)).map fun p => cost_matrix sim p.1 p.2).sum) := by
      funext c
      rw [map_list_sum, List.map_map]
      simp only [Function.comp_def, cost_matrix_map f hf]
    rw [hcost, listArgmin_comp _ f hf]

theorem matchFromSimilarity_map (f : α →+* β) (hf : StrictMono f) {n m : ℕ}
    (sim : Fin n → Fin m → α) :
    matchFromSimilarity (fun i j => f (sim i j)) = matchFromSimilarity sim := by
  rw [matchFromSimilarity, matchFromSimilarity, linear_sum_assignment_map f hf]
  apply List.filter_congr
  intro p _
  rw [decide_eq_decide, show ((90 : β)) = f 90 from (map_ofNat f 90).symm]
  exact hf.le_iff_le

end Cast

/-! ## Evaluation of the end-to-end scenario (claim C2)

Canonical names: `"Harvard University" ↦ "harvard"`, `"MIT" ↦ "mit"`,
`"Harvard Univ." ↦ "harvard"`,
`"Massachusetts Institute of Technology" ↦ "massachusetts technology"`.
The corpus has features `harvard, mit, massachusetts, technology,
"massachusetts technology"`, all surviving the `max_df` pruning, so the
two `"harvard"` documents have identical tf-idf rows (cosine 1) and every
other document pair shares no feature (cosine 0). -/

theorem simC2_00 : compute_similarity_matrix namesHA namesHB 0 0 = 100 := by
  have hpos : 0 < dotP (corpusOf namesHA namesHB) "harvard".data "harvard".data :=
    dotP_self_pos _ _ "harvard".data (by decide) (by decide)
  simp only [compute_similarity_matrix]
  rw [if_neg (by decide), if_neg (by decide), if_pos (by decide),
    show (canonicalize_name (namesHA 0)).data = "harvard".data from by decide,
    show (canonicalize_name (namesHB 0)).data = "harvard".data from by decide,
    cosineSim_self_eq_one _ _ hpos]
  norm_num

theorem simC2_01 : compute_similarity_matrix namesHA namesHB 0 1 = 0 := by
  have hz : dotP (corpusOf namesHA namesHB) "harvard".data "massachusetts technology".data = 0 :=
    dotP_eq_zero _ _ _ (by decide)
  simp only [compute_similarity_matrix]
  rw [if_neg (by decide), if_neg (by decide), if_pos (by decide),
    show (canonicalize_name (namesHA 0)).data = "harvard".data from by decide,
    show (canonicalize_name (namesHB 1)).data = "massachusetts technology".data from by decide,
    cosineSim_eq_zero _ _ _ hz]
  norm_num

theorem simC2_10 : compute_similarity_matrix namesHA namesHB 1 0 = 0 := by
  have hz : dotP (corpusOf namesHA namesHB) "mit".data "harvard".data = 0 :=
    dotP_eq_zero _ _ _ (by decide)
  simp only [compute_similarity_matrix]
  rw [if_neg (by decide), if_neg (by decide), if_pos (by decide),
    show (canonicalize_name (namesHA 1)).data = "mit".data from by decide,
    show (canonicalize_name (namesHB 0)).data = "harvard".data from by decide,
    cosineSim_eq_zero _ _ _ hz]
  norm_num

theorem simC2_11 : compute_similarity_matrix namesHA namesHB 1 1 = 0 := by
  have hz : dotP (corpusOf namesHA namesHB) "mit".data "massachusetts technology".data = 0 :=
    dotP_eq_zero _ _ _ (by decide)
  simp only [compute_similarity_matrix]
  rw [if_neg (by decide), if_neg (by decide), if_pos (by decide),
    show (canonicalize_name (namesHA 1)).data = "mit".data from by decide,
    show (canonicalize_name (namesHB 1)).data = "massachusetts technology".data from by decide,
    cosineSim_eq_zero _ _ _ hz]
  norm_num

/-- The real similarity matrix of the scenario is the cast of the integer
matrix `[[100, 0], [0, 0]]`. -/
theorem simC2_matrix :
    compute_similarity_matrix namesHA namesHB
      = fun i j => (((![![100, 0], ![0, 0]] : Fin 2 → Fin 2 → ℤ) i j : ℤ) : ℝ) := by
  funext i j
  fin_cases i <;> fin_cases j
  · simpa using simC2_00
  · simpa using simC2_01
  · simpa using simC2_10
  · simpa using simC2_11

theorem castRingHomStrictMono : StrictMono ⇑(Int.castRingHom ℝ) := Int.cast_strictMono

/-- C2 (counterexample): the resolver does NOT produce the claimed
MIT ↔ Massachusetts Institute of Technology match — `'mit'` is not a key
of the abbreviations table, so the two names canonicalise to `"mit"` and
`"massachusetts technology"`, which share no vocabulary feature. -/
theorem c2_no_mit_match :
    ((1 : Fin 2), (1 : Fin 2)) ∉ matchFromSimilarity (compute_similarity_matrix namesHA namesHB) := by
  rw [simC2_matrix,
    show (fun i j => (((![![100, 0], ![0, 0]] : Fin 2 → Fin 2 → ℤ) i j : ℤ) : ℝ))
        = fun i j => (Int.castRingHom ℝ) ((![![100, 0], ![0, 0]] : Fin 2 → Fin 2 → ℤ) i j)
      from rfl,
    matchFromSimilarity_map (Int.castRingHom ℝ) castRingHomStrictMono]
  decide

/-- C2 (amended): on the scenario's two sources the resolver produces
exactly ONE match — Harvard University ↔ Harvard Univ. (index pair
`(0, 0)`); MIT stays unmatched because `canonicalize_name` leaves `"mit"`
unexpanded while the B-side name canonicalises to
`"massachusetts technology"`. -/
theorem c2_single_harvard_match :
    matchFromSimilarity (compute_similarity_matrix namesHA namesHB)
      = [((0 : Fin 2), (0 : Fin 2))]
    ∧ canonicalize_name "MIT" = "mit"
    ∧ canonicalize_name "Massachusetts Institute of Technology"
        = "massachusetts technology" := by
  refine ⟨?_, by decide, by decide⟩
  rw [simC2_matrix,
    show (fun i j => (((![![100, 0], ![0, 0]] : Fin 2 → Fin 2 → ℤ) i j : ℤ) : ℝ))
        = fun i j => (Int.castRingHom ℝ) ((![![100, 0], ![0, 0]] : Fin 2 → Fin 2 → ℤ) i j)
      from rfl,
    matchFromSimilarity_map (Int.castRingHom ℝ) castRingHomStrictMono]
  decide

/-- C7: a row whose A-side name canonicalises to the empty string is
all-zero, a column whose B-side name canonicalises to the empty string is
all-zero, and consequently two names that both canonicalise to the empty
string are never reported as a match by the resolver. -/
theorem c7_empty_canonical_unmatchable {n m : ℕ}
    (namesA : Fin n → String) (namesB : Fin m → String) :
    (∀ i : Fin n, canonicalize_name (namesA i) = "" →
      ∀ j, compute_similarity_matrix namesA namesB i j = 0)
    ∧ (∀ j : Fin m, canonicalize_name (namesB j) = "" →
      ∀ i, compute_similarity_matrix namesA namesB i j = 0)
    ∧ ∀ (i : Fin n) (j : Fin m), canonicalize_name (namesA i) = "" →
        canonicalize_name (namesB j) = "" →
        (i, j) ∉ matchFromSimilarity (compute_similarity_matrix namesA namesB) := by
  have hrow : ∀ i : Fin n, canonicalize_name (namesA i) = "" →
      ∀ j, compute_similarity_matrix namesA namesB i j = 0 := by
    intro i hi j
    simp [compute_similarity_matrix, hi]
  refine ⟨hrow, ?_, ?_⟩
  · intro j hj i
    simp [compute_similarity_matrix, hj]
  · intro i j hi hj hmem
    rw [matchFromSimilarity, List.mem_filter] at hmem
    have h90 : (90 : ℝ) ≤ compute_similarity_matrix namesA namesB i j :=
      of_decide_eq_true hmem.2
    rw [hrow i hi j] at h90
    norm_num at h90

/-- Witness for C7 at the concrete name `"University"`, a pure stop word. -/
theorem c7_empty_canonical_unmatchable_witness :
    canonicalize_name "University" = ""
    ∧ compute_similarity_matrix namesU namesU 0 0 = 0
    ∧ ((0 : Fin 1), (0 : Fin 1)) ∉ matchFromSimilarity (compute_similarity_matrix namesU namesU) :=
  ⟨by decide, (c7_empty_canonical_unmatchable namesU namesU).1 0 (by decide) 0,
    (c7_empty_canonical_unmatchable namesU namesU).2.2 0 0 (by decide) (by decide)⟩

/-! ## Idempotence of `canonicalize_name` (claim C6): infrastructure

The output of `canonicalize_name` is a space-join of sorted tokens, each a
nonempty list of lowercase word characters that is neither a stop word nor
an abbreviation key; on such a string every stage of a second pass is the
identity.  The lemmas below first give one unfolding equation per scanner
branch, then characterise the tokenisation as the maximal word runs of the
pre-punctuation string, and finally show no abbreviation key survives the
expansion passes. -/

theorem wrGo_cons_word {c : Char} (h : isWordChar c = true) (cur cs : List Char) :
    wrGo cur (c :: cs) = wrGo (cur ++ [c]) cs := by
  rw [wrGo, if_pos h]

theorem wrGo_cons_nonword_nil {c : Char} (h : isWordChar c = false) (cs : List Char) :
    wrGo [] (c :: cs) = wrGo [] cs := by
  rw [wrGo, if_neg (by simp [h]), if_pos (by rfl)]

theorem wrGo_cons_nonword_ne {c : Char} (h : isWordChar c = false) {cur : List Char}
    (hc : cur ≠ []) (cs : List Char) : wrGo cur (c :: cs) = cur :: wrGo [] cs := by
  rw [wrGo, if_neg (by simp [h]), if_neg (by simpa [List.isEmpty_iff] using hc)]

theorem wrGo_nil_ne {cur : List Char} (hc : cur ≠ []) : wrGo cur [] = [cur] := by
  rw [wrGo, if_neg (by simpa [List.isEmpty_iff] using hc)]

theorem stGo_cons_space {c : Char} (h : isSpaceChar c = true) (cur cs : List Char) :
    stGo cur (c :: cs) = if cur.isEmpty then stGo [] cs else cur :: stGo [] cs := by
  rw [stGo, if_pos h]

theorem stGo_cons_nonspace {c : Char} (h : isSpaceChar c = false) (cur cs : List Char) :
    stGo cur (c :: cs) = stGo (cur ++ [c]) cs := by
  rw [stGo, if_neg (by simp [h])]

theorem csGo_cons_space_false {c : Char} (h : isSpaceChar c = true) (cs : List Char) :
    csGo false (c :: cs) = ' ' :: csGo true cs := by
  rw [csGo, if_pos h, if_neg (by simp)]

theorem csGo_cons_space_true {c : Char} (h : isSpaceChar c = true) (cs : List Char) :
    csGo true (c :: cs) = csGo true cs := by
  rw [csGo, if_pos h, if_pos rfl]

theorem csGo_cons_nonspace {c : Char} (h : isSpaceChar c = false) (b : Bool) (cs : List Char) :
    csGo b (c :: cs) = c :: csGo false cs := by
  rw [csGo, if_neg (by simp [h])]

theorem rwrGo_cons_word {c : Char} (h : isWordChar c = true) (k repl cur cs : List Char) :
    rwrGo k repl cur (c :: cs) = rwrGo k repl (cur ++ [c]) cs := by
  rw [rwrGo, if_pos h]

theorem rwrGo_cons_nonword {c : Char} (h : isWordChar c = false) (k repl cur cs : List Char) :
    rwrGo k repl cur (c :: cs) = emitRun k repl cur ++ c :: rwrGo k repl [] cs := by
  rw [rwrGo, if_neg (by simp [h])]

theorem emitRun_nil (k repl : List Char) : emitRun k repl [] = [] := by
  rw [emitRun, if_pos (by rfl)]

theorem emitRun_ne {cur : List Char} (hc : cur ≠ []) (k repl : List Char) :
    emitRun k repl cur = if cur = k then repl else cur := by
  rw [emitRun, if_neg (by simpa [List.isEmpty_iff] using hc)]

theorem word_not_space {c : Char} (h : isWordChar c = true) : isSpaceChar c = false := by
  by_contra hc
  rw [Bool.not_eq_false, isSpaceChar] at hc
  simp only [Bool.or_eq_true, beq_iff_eq] at hc
  rcases hc with ((((rfl | rfl) | rfl) | rfl) | rfl) | rfl <;> exact absurd h (by decide)

theorem toLower_eq_self {c : Char} (h : lowerWordChar c = true) : c.toLower = c := by
  simp only [lowerWordChar, Bool.and_eq_true, Bool.not_eq_true', Bool.and_eq_false_iff,
    decide_eq_false_iff_not] at h
  rw [Char.toLower]
  apply if_neg
  intro hcon
  rcases h.2 with h2 | h2
  · exact h2 hcon.1
  · exact h2 hcon.2

theorem toLower_not_upper (c : Char) :
    (decide (65 ≤ (Char.toLower c).toNat) && decide ((Char.toLower c).toNat ≤ 90)) = false := by
  rw [Char.toLower]
  by_cases h : c.toNat ≥ 65 ∧ c.toNat ≤ 90
  · rw [if_pos h]
    have hof : (Char.ofNat (c.toNat + 32)).toNat = c.toNat + 32 := by
      rw [Char.ofNat, dif_pos]
      · rfl
      · show c.toNat + 32 < 55296 ∨ _
        left
        omega
    rw [hof]
    have h2 : ¬(c.toNat + 32 ≤ 90) := by omega
    simp [h2]
  · rw [if_neg h]
    by_cases h1 : 65 ≤ c.toNat
    · have h2 : ¬(c.toNat ≤ 90) := fun hh => h ⟨h1, hh⟩
      simp [h2]
    · simp [h1]

theorem containsAnd_of_append (l r : List Char) :
    containsAnd (l ++ 'a' :: 'n' :: 'd' :: r) = true := by
  induction l with
  | nil => simp [containsAnd]
  | cons c cs ih =>
    rw [List.cons_append, containsAnd, ih, Bool.or_true]

/-! ### The tokenisation is the list of maximal word runs -/

theorem stGo_csGo : ∀ l : List Char,
    (∀ cur, stGo cur (csGo false l) = stGo cur l) ∧ stGo [] (csGo true l) = stGo [] l := by
  intro l
  induction l with
  | nil => exact ⟨fun _ => rfl, rfl⟩
  | cons c cs ih =>
    constructor
    · intro cur
      by_cases hsp : isSpaceChar c = true
      · rw [csGo_cons_space_false hsp, stGo_cons_space (by decide) cur,
          stGo_cons_space hsp cur, ih.2]
      · rw [csGo_cons_nonspace (by simpa using hsp) false,
          stGo_cons_nonspace (by simpa using hsp) cur,
          stGo_cons_nonspace (by simpa using hsp) cur, ih.1 (cur ++ [c])]
    · by_cases hsp : isSpaceChar c = true
      · rw [csGo_cons_space_true hsp, ih.2, stGo_cons_space hsp]
        rfl
      · rw [csGo_cons_nonspace (by simpa using hsp) true,
          stGo_cons_nonspace (by simpa using hsp) [],
          stGo_cons_nonspace (by simpa using hsp) [], ih.1 ([] ++ [c])]

theorem stGo_punct : ∀ l cur : List Char, stGo cur (punctToSpace l) = wrGo cur l := by
  intro l
  induction l with
  | nil => intro cur; rfl
  | cons c cs ih =>
    intro cur
    have hmap : punctToSpace (c :: cs)
        = (if isWordChar c || isSpaceChar c then c else ' ') :: punctToSpace cs := rfl
    by_cases hw : isWordChar c = true
    · rw [hmap, if_pos (by rw [hw]; rfl), stGo_cons_nonspace (word_not_space hw) cur,
        wrGo_cons_word hw, ih (cur ++ [c])]
    · have hkeep : (if isWordChar c || isSpaceChar c then c else ' ')
          = if isSpaceChar c = true then c else ' ' := by
        by_cases hs : isSpaceChar c = true
        · rw [if_pos (by rw [hs, Bool.or_true]), if_pos hs]
        · rw [if_neg (by simp [hw, hs]), if_neg hs]
      have hsp : isSpaceChar (if isSpaceChar c = true then c else ' ') = true := by
        by_cases hs : isSpaceChar c = true
        · rw [if_pos hs]; exact hs
        · rw [if_neg hs]; decide
      rw [hmap, hkeep, stGo_cons_space hsp cur, ih []]
      by_cases hc : cur = []
      · subst hc
        rw [if_pos (by rfl), wrGo_cons_nonword_nil (by simpa using hw)]
      · rw [if_neg (by simpa [List.isEmpty_iff] using hc),
          wrGo_cons_nonword_ne (by simpa using hw) hc]

/-- The tokenisation of steps 3-4 extracts exactly the maximal
word-character runs of the string before punctuation removal. -/
theorem splitTokens_punct_collapse (l : List Char) :
    splitTokens (collapseSpaces (punctToSpace l)) = wordRuns l := by
  rw [splitTokens, collapseSpaces, (stGo_csGo (punctToSpace l)).1, stGo_punct]
  rfl

theorem wrGo_word_prefix : ∀ w : List Char, (∀ c ∈ w, isWordChar c = true) →
    ∀ cur t : List Char, wrGo cur (w ++ t) = wrGo (cur ++ w) t := by
  intro w
  induction w with
  | nil => intro _ cur t; rw [List.nil_append, List.append_nil]
  | cons c cs ih =>
    intro hw cur t
    rw [List.cons_append, wrGo_cons_word (hw c (List.mem_cons_self _ _)),
      ih (fun x hx => hw x (List.mem_cons_of_mem _ hx)) (cur ++ [c]) t,
      List.append_assoc, List.singleton_append]

theorem wrGo_acc_split : ∀ t cur : List Char, cur ≠ [] →
    wrGo cur t = (cur ++ t.takeWhile isWordChar) :: wordRuns (t.dropWhile isWordChar) := by
  intro t
  induction t with
  | nil =>
    intro cur hc
    rw [wrGo_nil_ne hc, List.takeWhile_nil, List.dropWhile_nil, List.append_nil]
    rfl
  | cons c cs ih =>
    intro cur hc
    by_cases hw : isWordChar c = true
    · rw [wrGo_cons_word hw, ih (cur ++ [c]) (by simp),
        List.takeWhile_cons_of_pos hw, List.dropWhile_cons_of_pos hw,
        ← List.append_cons]
    · rw [wrGo_cons_nonword_ne (by simpa using hw) hc,
        List.takeWhile_cons_of_neg (by simp [hw]), List.dropWhile_cons_of_neg (by simp [hw]),
        List.append_nil]
      congr 1
      rw [wordRuns, wrGo_cons_nonword_nil (by simpa using hw)]

theorem wordRuns_cons_nonword {c : Char} (h : isWordChar c = false) (cs : List Char) :
    wordRuns (c :: cs) = wordRuns cs := by
  rw [wordRuns, wrGo_cons_nonword_nil h]
  rfl

theorem wordRuns_take_drop (l : List Char) :
    wordRuns l = (if l.takeWhile isWordChar = [] then [] else [l.takeWhile isWordChar])
      ++ wordRuns (l.dropWhile isWordChar) := by
  cases l with
  | nil => rfl
  | cons c cs =>
    by_cases hw : isWordChar c = true
    · rw [wordRuns, wrGo_cons_word hw, List.nil_append, wrGo_acc_split cs [c] (by simp),
        List.takeWhile_cons_of_pos hw, List.dropWhile_cons_of_pos hw,
        if_neg (by simp)]
      rfl
    · rw [List.takeWhile_cons_of_neg (by simp [hw]), List.dropWhile_cons_of_neg (by simp [hw]),
        if_pos rfl, List.nil_append]

theorem wordRuns_of_word (w : List Char) (hw : ∀ c ∈ w, isWordChar c = true) (hne : w ≠ []) :
    wordRuns w = [w] := by
  have h := wrGo_word_prefix w hw [] []
  rw [List.append_nil] at h
  rw [wordRuns, h, List.nil_append, wrGo_nil_ne hne]

theorem wordRuns_joinTokens : ∀ T : List (List Char),
    (∀ t ∈ T, t ≠ [] ∧ ∀ c ∈ t, isWordChar c = true) →
    wordRuns (joinTokens T) = T := by
  intro T
  induction T with
  | nil => intro _; rfl
  | cons t ts ih =>
    intro h
    cases ts with
    | nil =>
      exact wordRuns_of_word t (h t (List.mem_cons_self _ _)).2 (h t (List.mem_cons_self _ _)).1
    | cons t2 ts2 =>
      rw [show joinTokens (t :: t2 :: ts2) = t ++ ' ' :: joinTokens (t2 :: ts2) from rfl,
        wordRuns, wrGo_word_prefix t (h t (List.mem_cons_self _ _)).2, List.nil_append,
        wrGo_cons_nonword_ne (by decide) (h t (List.mem_cons_self _ _)).1]
      rw [show wrGo ([] : List Char) (joinTokens (t2 :: ts2)) = wordRuns (joinTokens (t2 :: ts2))
        from rfl]
      rw [ih fun u hu => h u (List.mem_cons_of_mem _ hu)]

/-! ### Word runs of the `&` expansion: every run of the output is a run
of the input or contains the letters `and` (from a merge) -/

theorem ampGo_amp_single (prev : Bool) : ampGo prev ['&'] = ['&'] := rfl

theorem ampGo_amp_replace {prev : Bool} {d : Char} (h : (prev && isWordChar d) = true)
    (ds : List Char) :
    ampGo prev ('&' :: d :: ds) = 'a' :: 'n' :: 'd' :: ampGo false (d :: ds) := by
  simp [ampGo, h]

theorem ampGo_amp_norepl {prev : Bool} {d : Char} (h : (prev && isWordChar d) = false)
    (ds : List Char) :
    ampGo prev ('&' :: d :: ds) = '&' :: ampGo false (d :: ds) := by
  simp [ampGo, h]

theorem ampGo_cons {prev : Bool} {c : Char} (h : c ≠ '&') (cs : List Char) :
    ampGo prev (c :: cs) = c :: ampGo (isWordChar c) cs := by
  simp [ampGo, h]

/-- From the head-run extension property and the tail-runs property, every
run of the transformed string is a run of the original or contains `and`. -/
theorem main_of_bc (X l : List Char)
    (hb : X.takeWhile isWordChar = l.takeWhile isWordChar
      ∨ ∃ r, X.takeWhile isWordChar = l.takeWhile isWordChar ++ 'a' :: 'n' :: 'd' :: r)
    (hc : ∀ w ∈ wordRuns (X.dropWhile isWordChar),
      w ∈ wordRuns (l.dropWhile isWordChar) ∨ containsAnd w = true) :
    ∀ w ∈ wordRuns X, w ∈ wordRuns l ∨ containsAnd w = true := by
  intro w hw
  rw [wordRuns_take_drop X] at hw
  rcases List.mem_append.1 hw with hw1 | hw2
  · by_cases hx : X.takeWhile isWordChar = []
    · rw [if_pos hx] at hw1
      exact absurd hw1 (List.not_mem_nil w)
    · rw [if_neg hx] at hw1
      have hw1' : w = X.takeWhile isWordChar := List.mem_singleton.1 hw1
      rcases hb with hb | ⟨r, hb⟩
      · left
        have hlt : l.takeWhile isWordChar ≠ [] := fun hl => hx (by rw [hb, hl])
        rw [wordRuns_take_drop l, if_neg hlt]
        apply List.mem_append_left
        rw [hw1', hb]
        exact List.mem_singleton_self _
      · right
        rw [hw1', hb]
        exact containsAnd_of_append _ _
  · rcases hc w hw2 with h | h
    · left
      rw [wordRuns_take_drop l]
      exact List.mem_append_right _ h
    · right
      exact h

theorem ampGo_runs : ∀ (l : List Char) (prev : Bool),
    ((ampGo prev l).takeWhile isWordChar = l.takeWhile isWordChar
      ∨ ∃ r, (ampGo prev l).takeWhile isWordChar
          = l.takeWhile isWordChar ++ 'a' :: 'n' :: 'd' :: r)
    ∧ ∀ w ∈ wordRuns ((ampGo prev l).dropWhile isWordChar),
        w ∈ wordRuns (l.dropWhile isWordChar) ∨ containsAnd w = true := by
  intro l
  induction l with
  | nil => intro prev; exact ⟨Or.inl rfl, fun w hw => Or.inl hw⟩
  | cons c cs ih =>
    intro prev
    by_cases hamp : c = '&'
    · subst hamp
      cases cs with
      | nil =>
        constructor
        · left
          rw [ampGo_amp_single]
        · intro w hw
          rw [ampGo_amp_single] at hw
          exact Or.inl hw
      | cons d ds =>
        by_cases hrep : (prev && isWordChar d) = true
        · rw [ampGo_amp_replace hrep]
          constructor
          · right
            refine ⟨(ampGo false (d :: ds)).takeWhile isWordChar, ?_⟩
            rw [List.takeWhile_cons_of_pos (by decide),
              List.takeWhile_cons_of_pos (by decide),
              List.takeWhile_cons_of_pos (by decide),
              List.takeWhile_cons_of_neg (by decide), List.nil_append]
          · intro w hw
            rw [List.dropWhile_cons_of_pos (by decide), List.dropWhile_cons_of_pos (by decide),
              List.dropWhile_cons_of_pos (by decide)] at hw
            rcases (ih false).2 w hw with h | h
            · left
              rw [List.dropWhile_cons_of_neg (by decide), wordRuns_cons_nonword (by decide),
                wordRuns_take_drop (d :: ds)]
              exact List.mem_append_right _ h
            · right
              exact h
        · rw [ampGo_amp_norepl (by simpa using hrep)]
          constructor
          · left
            rw [List.takeWhile_cons_of_neg (by decide), List.takeWhile_cons_of_neg (by decide)]
          · intro w hw
            rw [List.dropWhile_cons_of_neg (by decide),
              wordRuns_cons_nonword (by decide)] at hw
            rcases main_of_bc _ _ (ih false).1 (ih false).2 w hw with h | h
            · left
              rw [List.dropWhile_cons_of_neg (by decide), wordRuns_cons_nonword (by decide)]
              exact h
            · right
              exact h
    · rw [ampGo_cons hamp]
      by_cases hw : isWordChar c = true
      · constructor
        · rcases (ih (isWordChar c)).1 with h | ⟨r, h⟩
          · left
            rw [List.takeWhile_cons_of_pos hw, List.takeWhile_cons_of_pos hw, h]
          · right
            exact ⟨r, by rw [List.takeWhile_cons_of_pos hw, List.takeWhile_cons_of_pos hw, h,
              List.cons_append]⟩
        · intro w hww
          rw [List.dropWhile_cons_of_pos hw] at hww
          rcases (ih (isWordChar c)).2 w hww with h | h
          · left
            rw [List.dropWhile_cons_of_pos hw]
            exact h
          · right
            exact h
      · constructor
        · left
          rw [List.takeWhile_cons_of_neg (by simp [hw]),
            List.takeWhile_cons_of_neg (by simp [hw])]
        · intro w hww
          rw [List.dropWhile_cons_of_neg (by simp [hw]),
            wordRuns_cons_nonword (by simpa using hw)] at hww
          rcases main_of_bc _ _ (ih (isWordChar c)).1 (ih (isWordChar c)).2 w hww with h | h
          · left
            rw [List.dropWhile_cons_of_neg (by simp [hw]),
              wordRuns_cons_nonword (by simpa using hw)]
            exact h
          · right
            exact h

theorem ampSub_runs (l : List Char) :
    ∀ w ∈ wordRuns (ampSub l), w ∈ wordRuns l ∨ containsAnd w = true :=
  main_of_bc _ _ (ampGo_runs l false).1 (ampGo_runs l false).2

theorem ampGo_eq_self : ∀ l : List Char, '&' ∉ l → ∀ prev, ampGo prev l = l := by
  intro l
  induction l with
  | nil => intro _ _; rfl
  | cons c cs ih =>
    intro h prev
    have hc : c ≠ '&' := fun hh => h (hh ▸ List.mem_cons_self _ _)
    rw [ampGo_cons hc, ih (fun hh => h (List.mem_cons_of_mem _ hh)) _]

/-! ### Word runs of one abbreviation pass -/

theorem rwrGo_wordRuns (k repl : List Char) (hrepl : repl ≠ [])
    (hreplw : ∀ c ∈ repl, isWordChar c = true) :
    ∀ l cur : List Char, (∀ c ∈ cur, isWordChar c = true) →
      wordRuns (rwrGo k repl cur l)
        = (wrGo cur l).map fun w => if w = k then repl else w := by
  intro l
  induction l with
  | nil =>
    intro cur hcur
    by_cases hc : cur = []
    · subst hc
      rw [show rwrGo k repl [] [] = emitRun k repl [] from rfl, emitRun_nil]
      rfl
    · rw [show rwrGo k repl cur [] = emitRun k repl cur from rfl, emitRun_ne hc,
        wrGo_nil_ne hc, List.map_cons, List.map_nil]
      by_cases hk : cur = k
      · rw [if_pos hk]
        exact wordRuns_of_word repl hreplw hrepl
      · rw [if_neg hk]
        exact wordRuns_of_word cur hcur hc
  | cons c cs ih =>
    intro cur hcur
    by_cases hw : isWordChar c = true
    · rw [rwrGo_cons_word hw, wrGo_cons_word hw]
      refine ih (cur ++ [c]) ?_
      intro x hx
      rcases List.mem_append.1 hx with h | h
      · exact hcur x h
      · rw [List.mem_singleton.1 h]
        exact hw
    · rw [rwrGo_cons_nonword (by simpa using hw)]
      by_cases hc : cur = []
      · subst hc
        rw [emitRun_nil, List.nil_append, wordRuns_cons_nonword (by simpa using hw),
          wrGo_cons_nonword_nil (by simpa using hw)]
        exact ih [] (by simp)
      · rw [emitRun_ne hc, wrGo_cons_nonword_ne (by simpa using hw) hc, List.map_cons]
        have hw'w : ∀ x ∈ (if cur = k then repl else cur), isWordChar x = true := by
          by_cases hk : cur = k
          · rw [if_pos hk]; exact hreplw
          · rw [if_neg hk]; exact hcur
        have hw'ne : (if cur = k then repl else cur) ≠ [] := by
          by_cases hk : cur = k
          · rw [if_pos hk]; exact hrepl
          · rw [if_neg hk]; exact hc
        rw [wordRuns, wrGo_word_prefix _ hw'w, List.nil_append,
          wrGo_cons_nonword_ne (by simpa using hw) hw'ne]
        rw [show wrGo ([] : List Char) (rwrGo k repl [] cs) = wordRuns (rwrGo k repl [] cs)
          from rfl]
        rw [ih [] (by simp)]

theorem replaceWordRuns_wordRuns (k repl : List Char) (hrepl : repl ≠ [])
    (hreplw : ∀ c ∈ repl, isWordChar c = true) (l : List Char) :
    wordRuns (replaceWordRuns k repl l)
      = (wordRuns l).map fun w => if w = k then repl else w :=
  rwrGo_wordRuns k repl hrepl hreplw l [] (by simp)

theorem rwrGo_eq_self (k repl : List Char) :
    ∀ l cur : List Char, (∀ w ∈ wrGo cur l, w ≠ k) → rwrGo k repl cur l = cur ++ l := by
  intro l
  induction l with
  | nil =>
    intro cur h
    by_cases hc : cur = []
    · subst hc; rfl
    · rw [show rwrGo k repl cur [] = emitRun k repl cur from rfl, emitRun_ne hc,
        if_neg (h cur (by rw [wrGo_nil_ne hc]; exact List.mem_singleton_self _)),
        List.append_nil]
  | cons c cs ih =>
    intro cur h
    by_cases hw : isWordChar c = true
    · rw [rwrGo_cons_word hw, ih (cur ++ [c]) (by rw [← wrGo_cons_word hw]; exact h),
        List.append_assoc, List.singleton_append]
    · by_cases hc : cur = []
      · subst hc
        rw [rwrGo_cons_nonword (by simpa using hw), emitRun_nil, List.nil_append,
          List.nil_append,
          ih [] (by rw [← wrGo_cons_nonword_nil (by simpa using hw)]; exact h),
          List.nil_append]
      · have hmem : cur ∈ wrGo cur (c :: cs) := by
          rw [wrGo_cons_nonword_ne (by simpa using hw) hc]
          exact List.mem_cons_self _ _
        have hcur_ne : cur ≠ k := h cur hmem
        have htail : ∀ w ∈ wrGo ([] : List Char) cs, w ≠ k := by
          intro w hw'
          apply h w
          rw [wrGo_cons_nonword_ne (by simpa using hw) hc]
          exact List.mem_cons_of_mem _ hw'
        rw [rwrGo_cons_nonword (by simpa using hw), emitRun_ne hc, if_neg hcur_ne,
          ih [] htail, List.nil_append]

theorem replaceWordRuns_eq_self (k repl l : List Char)
    (h : ∀ w ∈ wordRuns l, w ≠ k) : replaceWordRuns k repl l = l := by
  rw [replaceWordRuns, rwrGo_eq_self k repl l [] h, List.nil_append]

/-! ### Character propagation through the expansion passes -/

theorem mem_emitRun {c : Char} {k repl cur : List Char} (h : c ∈ emitRun k repl cur) :
    c ∈ repl ∨ c ∈ cur := by
  rw [emitRun] at h
  split at h
  · exact absurd h (List.not_mem_nil c)
  · split at h
    · exact Or.inl h
    · exact Or.inr h

theorem rwrGo_allP (P : Char → Prop) (k repl : List Char) (hrepl : ∀ c ∈ repl, P c) :
    ∀ l cur : List Char, (∀ c ∈ l, P c) → (∀ c ∈ cur, P c) →
      ∀ c ∈ rwrGo k repl cur l, P c := by
  intro l
  induction l with
  | nil =>
    intro cur _ hcur c hc
    rcases mem_emitRun hc with h | h
    · exact hrepl c h
    · exact hcur c h
  | cons d ds ih =>
    intro cur hl hcur c hc
    by_cases hw : isWordChar d = true
    · rw [rwrGo_cons_word hw] at hc
      refine ih (cur ++ [d]) (fun x hx => hl x (List.mem_cons_of_mem _ hx)) ?_ c hc
      intro x hx
      rcases List.mem_append.1 hx with h | h
      · exact hcur x h
      · rw [List.mem_singleton.1 h]
        exact hl d (List.mem_cons_self _ _)
    · rw [rwrGo_cons_nonword (by simpa using hw)] at hc
      rcases List.mem_append.1 hc with h | h
      · rcases mem_emitRun h with h2 | h2
        · exact hrepl c h2
        · exact hcur c h2
      · rcases List.mem_cons.1 h with rfl | h2
        · exact hl c (List.mem_cons_self _ _)
        · exact ih [] (fun x hx => hl x (List.mem_cons_of_mem _ hx)) (by simp) c h2

theorem replaceWordRuns_allP (P : Char → Prop) (k repl l : List Char)
    (hrepl : ∀ c ∈ repl, P c) (hl : ∀ c ∈ l, P c) :
    ∀ c ∈ replaceWordRuns k repl l, P c :=
  rwrGo_allP P k repl hrepl l [] hl (by simp)

theorem ampGo_allP (P : Char → Prop) (ha : P 'a') (hn : P 'n') (hd : P 'd') :
    ∀ l : List Char, (∀ c ∈ l, P c) → ∀ prev, ∀ c ∈ ampGo prev l, P c := by
  intro l
  induction l with
  | nil => intro _ prev c hc; exact absurd hc (List.not_mem_nil c)
  | cons d ds ih =>
    intro hl prev c hc
    by_cases hamp : d = '&'
    · subst hamp
      cases ds with
      | nil =>
        rw [ampGo_amp_single] at hc
        rw [List.mem_singleton.1 hc]
        exact hl '&' (List.mem_cons_self _ _)
      | cons e es =>
        by_cases hrep : (prev && isWordChar e) = true
        · rw [ampGo_amp_replace hrep] at hc
          rcases List.mem_cons.1 hc with rfl | hc2
          · exact ha
          rcases List.mem_cons.1 hc2 with rfl | hc3
          · exact hn
          rcases List.mem_cons.1 hc3 with rfl | hc4
          · exact hd
          exact ih (fun x hx => hl x (List.mem_cons_of_mem _ hx)) false c hc4
        · rw [ampGo_amp_norepl (by simpa using hrep)] at hc
          rcases List.mem_cons.1 hc with rfl | hc2
          · exact hl '&' (List.mem_cons_self _ _)
          · exact ih (fun x hx => hl x (List.mem_cons_of_mem _ hx)) false c hc2
    · rw [ampGo_cons hamp] at hc
      rcases List.mem_cons.1 hc with rfl | hc2
      · exact hl c (List.mem_cons_self _ _)
      · exact ih (fun x hx => hl x (List.mem_cons_of_mem _ hx)) _ c hc2

theorem wrGo_chars (R : Char → Prop) :
    ∀ l cur : List Char, (∀ c ∈ cur, R c ∧ isWordChar c = true) →
      (∀ c ∈ l, isWordChar c = true → R c) →
      ∀ w ∈ wrGo cur l, ∀ c ∈ w, R c ∧ isWordChar c = true := by
  intro l
  induction l with
  | nil =>
    intro cur hcur _ w hw c hc
    by_cases hce : cur = []
    · subst hce
      exact absurd hw (by simp [wrGo])
    · rw [wrGo_nil_ne hce, List.mem_singleton] at hw
      subst hw
      exact hcur c hc
  | cons d ds ih =>
    intro cur hcur hl w hw c hc
    by_cases hwd : isWordChar d = true
    · rw [wrGo_cons_word hwd] at hw
      refine ih (cur ++ [d]) ?_ (fun x hx hxw => hl x (List.mem_cons_of_mem _ hx) hxw) w hw c hc
      intro x hx
      rcases List.mem_append.1 hx with h | h
      · exact hcur x h
      · rw [List.mem_singleton.1 h]
        exact ⟨hl d (List.mem_cons_self _ _) hwd, hwd⟩
    · by_cases hce : cur = []
      · subst hce
        rw [wrGo_cons_nonword_nil (by simpa using hwd)] at hw
        exact ih [] (by simp) (fun x hx hxw => hl x (List.mem_cons_of_mem _ hx) hxw) w hw c hc
      · rw [wrGo_cons_nonword_ne (by simpa using hwd) hce] at hw
        rcases List.mem_cons.1 hw with rfl | hw2
        · exact hcur c hc
        · exact ih [] (by simp) (fun x hx hxw => hl x (List.mem_cons_of_mem _ hx) hxw) w hw2 c hc

/-! ### No abbreviation key survives all expansion passes -/

theorem replace_run_ne (k' k repl : List Char) (hrepl : repl ≠ [])
    (hreplw : ∀ c ∈ repl, isWordChar c = true) (hrk : repl ≠ k)
    (l : List Char) (hl : k' ≠ k → ∀ w ∈ wordRuns l, w ≠ k) :
    ∀ w ∈ wordRuns (replaceWordRuns k' repl l), w ≠ k := by
  intro w hw
  rw [replaceWordRuns_wordRuns k' repl hrepl hreplw] at hw
  obtain ⟨w0, hw0, rfl⟩ := List.mem_map.1 hw
  by_cases hk : w0 = k'
  · rw [if_pos hk]
    exact hrk
  · rw [if_neg hk]
    by_cases hkk : k' = k
    · subst hkk
      exact hk
    · exact hl hkk w0 hw0

theorem amp_run_ne (k : List Char) (hka : containsAnd k = false) (l : List Char)
    (hl : ∀ w ∈ wordRuns l, w ≠ k) : ∀ w ∈ wordRuns (ampSub l), w ≠ k := by
  intro w hw
  rcases ampSub_runs l w hw with h | h
  · exact hl w h
  · intro he
    rw [he, hka] at h
    cases h

theorem applyAbbrevs_no_key_runs (l : List Char) :
    ∀ k ∈ abbrevKeys, ∀ w ∈ wordRuns (applyAbbrevs l), w ≠ k := by
  intro k hk
  simp only [abbrevKeys, List.mem_cons, List.not_mem_nil, or_false] at hk
  rcases hk with rfl | rfl | rfl | rfl | rfl | rfl | rfl | rfl <;>
  · rw [applyAbbrevs]
    refine replace_run_ne _ _ _ (by decide) (by decide) (by decide) _ fun hpenn => ?_
    refine replace_run_ne _ _ _ (by decide) (by decide) (by decide) _ fun hcalif => ?_
    refine replace_run_ne _ _ _ (by decide) (by decide) (by decide) _ fun hu => ?_
    refine amp_run_ne _ (by decide) _ ?_
    refine replace_run_ne _ _ _ (by decide) (by decide) (by decide) _ fun heng => ?_
    refine replace_run_ne _ _ _ (by decide) (by decide) (by decide) _ fun hsci => ?_
    refine replace_run_ne _ _ _ (by decide) (by decide) (by decide) _ fun htech => ?_
    refine replace_run_ne _ _ _ (by decide) (by decide) (by decide) _ fun hinst => ?_
    refine replace_run_ne _ _ _ (by decide) (by decide) (by decide) _ fun huniv => ?_
    first
    | exact absurd rfl hpenn
    | exact absurd rfl hcalif
    | exact absurd rfl hu
    | exact absurd rfl heng
    | exact absurd rfl hsci
    | exact absurd rfl htech
    | exact absurd rfl hinst
    | exact absurd rfl huniv

theorem applyAbbrevs_eq_self (l : List Char)
    (hNoKey : ∀ k ∈ abbrevKeys, ∀ w ∈ wordRuns l, w ≠ k) (hNoAmp : '&' ∉ l) :
    applyAbbrevs l = l := by
  have hamp : ampSub l = l := by
    rw [ampSub]
    exact ampGo_eq_self l hNoAmp false
  rw [applyAbbrevs,
    replaceWordRuns_eq_self _ _ l (hNoKey "univ".data (by decide)),
    replaceWordRuns_eq_self _ _ l (hNoKey "inst".data (by decide)),
    replaceWordRuns_eq_self _ _ l (hNoKey "tech".data (by decide)),
    replaceWordRuns_eq_self _ _ l (hNoKey "sci".data (by decide)),
    replaceWordRuns_eq_self _ _ l (hNoKey "eng".data (by decide)),
    hamp,
    replaceWordRuns_eq_self _ _ l (hNoKey "u".data (by decide)),
    replaceWordRuns_eq_self _ _ l (hNoKey "calif".data (by decide)),
    replaceWordRuns_eq_self _ _ l (hNoKey "penn".data (by decide))]

/-! ### The token order is total and transitive -/

theorem lexLeB_total : ∀ a b : List Char, lexLeB a b = true ∨ lexLeB b a = true := by
  intro a
  induction a with
  | nil => intro b; exact Or.inl rfl
  | cons x xs ih =>
    intro b
    cases b with
    | nil => exact Or.inr rfl
    | cons y ys =>
      rcases lt_trichotomy x y with h | h | h
      · left
        rw [lexLeB, if_pos h]
      · subst h
        rcases ih ys with h2 | h2
        · left
          rw [lexLeB, if_neg (lt_irrefl x), if_neg (lt_irrefl x)]
          exact h2
        · right
          rw [lexLeB, if_neg (lt_irrefl x), if_neg (lt_irrefl x)]
          exact h2
      · right
        rw [lexLeB, if_pos h]

theorem lexLeB_trans :
    ∀ a b c : List Char, lexLeB a b = true → lexLeB b c = true → lexLeB a c = true := by
  intro a
  induction a with
  | nil => intro b c _ _; rfl
  | cons x xs ih =>
    intro b c hab hbc
    cases b with
    | nil =>
      rw [lexLeB] at hab
      exact Bool.noConfusion hab
    | cons y ys =>
      cases c with
      | nil =>
        rw [lexLeB] at hbc
        exact Bool.noConfusion hbc
      | cons z zs =>
        rw [lexLeB] at hab hbc ⊢
        by_cases hxy : x < y
        · by_cases hyz : y < z
          · rw [if_pos (lt_trans hxy hyz)]
          · by_cases hzy : z < y
            · rw [if_neg hyz, if_pos hzy] at hbc
              exact Bool.noConfusion hbc
            · have hyz' : y = z := le_antisymm (not_lt.1 hzy) (not_lt.1 hyz)
              subst hyz'
              rw [if_pos hxy]
        · by_cases hyx : y < x
          · rw [if_neg hxy, if_pos hyx] at hab
            exact Bool.noConfusion hab
          · have hxy' : x = y := le_antisymm (not_lt.1 hyx) (not_lt.1 hxy)
            subst hxy'
            rw [if_neg (lt_irrefl x), if_neg (lt_irrefl x)] at hab
            by_cases hxz : x < z
            · rw [if_pos hxz]
            · by_cases hzx : z < x
              · rw [if_neg hxz, if_pos hzx] at hbc
                exact Bool.noConfusion hbc
              · have hxz' : x = z := le_antisymm (not_lt.1 hzx) (not_lt.1 hxz)
                subst hxz'
                rw [if_neg (lt_irrefl x), if_neg (lt_irrefl x)] at hbc
                rw [if_neg (lt_irrefl x), if_neg (lt_irrefl x)]
                exact ih ys zs hab hbc

instance : IsTotal (List Char) tokLE := ⟨lexLeB_total⟩

instance : IsTrans (List Char) tokLE := ⟨lexLeB_trans⟩

/-! ### Structure of a joined token list -/

theorem mem_joinTokens : ∀ (T : List (List Char)) (c : Char),
    c ∈ joinTokens T → (∃ t ∈ T, c ∈ t) ∨ c = ' ' := by
  intro T
  induction T with
  | nil => intro c hc; exact absurd hc (List.not_mem_nil c)
  | cons t ts ih =>
    intro c hc
    cases ts with
    | nil =>
      rw [show joinTokens [t] = t from rfl] at hc
      exact Or.inl ⟨t, List.mem_cons_self _ _, hc⟩
    | cons t2 ts2 =>
      rw [show joinTokens (t :: t2 :: ts2) = t ++ ' ' :: joinTokens (t2 :: ts2) from rfl] at hc
      rcases List.mem_append.1 hc with h | h
      · exact Or.inl ⟨t, List.mem_cons_self _ _, h⟩
      · rcases List.mem_cons.1 h with rfl | h2
        · exact Or.inr rfl
        · rcases ih c h2 with ⟨u, hu, hcu⟩ | h3
          · exact Or.inl ⟨u, List.mem_cons_of_mem _ hu, hcu⟩
          · exact Or.inr h3

theorem joinTokens_ne_nil (t : List Char) (ts : List (List Char)) (ht : t ≠ []) :
    joinTokens (t :: ts) ≠ [] := by
  cases ts with
  | nil => exact ht
  | cons t2 ts2 =>
    show t ++ ' ' :: joinTokens (t2 :: ts2) ≠ []
    simp

theorem joinTokens_head (t : List Char) (ts : List (List Char)) (ht : t ≠ []) :
    (joinTokens (t :: ts)).head? = t.head? := by
  cases ts with
  | nil => rfl
  | cons t2 ts2 =>
    cases t with
    | nil => exact absurd rfl ht
    | cons a t0 => rfl

theorem joinTokens_getLast : ∀ (T : List (List Char)), (∀ t ∈ T, t ≠ []) →
    ∀ c : Char, (joinTokens T).getLast? = some c → ∃ t ∈ T, t.getLast? = some c := by
  intro T
  induction T with
  | nil => intro _ c hc; exact Option.noConfusion hc
  | cons t ts ih =>
    intro hT c hc
    cases ts with
    | nil =>
      rw [show joinTokens [t] = t from rfl] at hc
      exact ⟨t, List.mem_cons_self _ _, hc⟩
    | cons t2 ts2 =>
      rw [show joinTokens (t :: t2 :: ts2) = t ++ ' ' :: joinTokens (t2 :: ts2) from rfl,
        List.getLast?_append,
        show (' ' :: joinTokens (t2 :: ts2)) = [' '] ++ joinTokens (t2 :: ts2) from rfl,
        List.getLast?_append] at hc
      have hne : joinTokens (t2 :: ts2) ≠ [] :=
        joinTokens_ne_nil t2 ts2 (hT t2 (List.mem_cons_of_mem _ (List.mem_cons_self _ _)))
      cases hj : (joinTokens (t2 :: ts2)).getLast? with
      | none =>
        have hsome := List.getLast?_isSome.2 hne
        rw [hj] at hsome
        exact Bool.noConfusion hsome
      | some d =>
        rw [hj] at hc
        have hdc : d = c := by
          have : (some d).or ([' '].getLast?) = some d := rfl
          rw [this] at hc
          have : (some d).or t.getLast? = some d := rfl
          rw [this] at hc
          exact Option.some.inj hc
        subst hdc
        obtain ⟨u, hu, huc⟩ :=
          ih (fun u hu => hT u (List.mem_cons_of_mem _ hu)) d hj
        exact ⟨u, List.mem_cons_of_mem _ hu, huc⟩

/-! ### `strip` and `lower` fix points -/

theorem dropWhile_eq_self_of_head {p : Char → Bool} :
    ∀ l : List Char, (∀ c, l.head? = some c → p c = false) → l.dropWhile p = l := by
  intro l h
  cases l with
  | nil => rfl
  | cons a l => rw [List.dropWhile_cons, if_neg (by simp [h a rfl])]

theorem pyStrip_eq_self (l : List Char)
    (h1 : ∀ c, l.head? = some c → isSpaceChar c = false)
    (h2 : ∀ c, l.getLast? = some c → isSpaceChar c = false) : pyStrip l = l := by
  rw [pyStrip, dropWhile_eq_self_of_head l h1, dropWhile_eq_self_of_head l.reverse ?_,
    List.reverse_reverse]
  intro c hc
  rw [List.head?_reverse] at hc
  exact h2 c hc

theorem pyStrip_subset {c : Char} {l : List Char} (h : c ∈ pyStrip l) : c ∈ l := by
  rw [pyStrip, List.mem_reverse] at h
  have h1 := (List.dropWhile_sublist _).subset h
  rw [List.mem_reverse] at h1
  exact (List.dropWhile_sublist _).subset h1

theorem pyLower_eq_self (l : List Char) (h : ∀ c ∈ l, c.toLower = c) : pyLower l = l :=
  (List.map_congr_left h).trans (List.map_id l)

/-! ### Canonical tokens are good: nonempty lowercase word runs that avoid
the stop words and the abbreviation keys -/

theorem applyAbbrevs_not_upper (l : List Char)
    (hl : ∀ c ∈ l, ¬(65 ≤ c.toNat ∧ c.toNat ≤ 90)) :
    ∀ c ∈ applyAbbrevs l, ¬(65 ≤ c.toNat ∧ c.toNat ≤ 90) := by
  simp only [applyAbbrevs, ampSub]
  refine replaceWordRuns_allP _ _ _ _ (by decide) ?_
  refine replaceWordRuns_allP _ _ _ _ (by decide) ?_
  refine replaceWordRuns_allP _ _ _ _ (by decide) ?_
  refine ampGo_allP _ (by decide) (by decide) (by decide) _ ?_ false
  refine replaceWordRuns_allP _ _ _ _ (by decide) ?_
  refine replaceWordRuns_allP _ _ _ _ (by decide) ?_
  refine replaceWordRuns_allP _ _ _ _ (by decide) ?_
  refine replaceWordRuns_allP _ _ _ _ (by decide) ?_
  exact replaceWordRuns_allP _ _ _ _ (by decide) hl

theorem canonTokens_good (s : String) :
    ∀ t ∈ canonTokens s,
      (t ≠ [] ∧ ∀ c ∈ t, lowerWordChar c = true) ∧
        keepToken t = true ∧ ∀ k ∈ abbrevKeys, t ≠ k := by
  intro t ht
  simp only [canonTokens, unidecodeModel] at ht
  obtain ⟨hmem, hkeep⟩ := List.mem_filter.1 ht
  rw [splitTokens_punct_collapse] at hmem
  have hnotup : ∀ c ∈ applyAbbrevs (pyStrip (pyLower s.data)),
      ¬(65 ≤ c.toNat ∧ c.toNat ≤ 90) := by
    refine applyAbbrevs_not_upper _ ?_
    intro c hc
    have hc2 := pyStrip_subset hc
    rw [pyLower] at hc2
    obtain ⟨c0, _, rfl⟩ := List.mem_map.1 hc2
    have hb := toLower_not_upper c0
    rw [Bool.and_eq_false_iff] at hb
    intro hand
    rcases hb with hb | hb
    · rw [decide_eq_false_iff_not] at hb
      exact hb hand.1
    · rw [decide_eq_false_iff_not] at hb
      exact hb hand.2
  have hsrc : ∀ c ∈ applyAbbrevs (pyStrip (pyLower s.data)),
      isWordChar c = true → lowerWordChar c = true := by
    intro c hc hw
    have hnu := hnotup c hc
    simp only [lowerWordChar, hw, Bool.true_and, Bool.not_eq_true', Bool.and_eq_false_iff,
      decide_eq_false_iff_not]
    exact not_and_or.1 hnu
  have hne : t ≠ [] := by
    intro he
    rw [he] at hkeep
    exact absurd hkeep (by decide)
  refine ⟨⟨hne, ?_⟩, hkeep, fun k hk => applyAbbrevs_no_key_runs _ k hk t hmem⟩
  intro c hc
  have := wrGo_chars (fun c => lowerWordChar c = true)
    (applyAbbrevs (pyStrip (pyLower s.data))) [] (by simp) hsrc t hmem c hc
  exact this.1

/-! ### A canonical string is a fixed point of the token pipeline -/

theorem canonical_fixed (T : List (List Char))
    (hgood : ∀ t ∈ T, t ≠ [] ∧ ∀ c ∈ t, lowerWordChar c = true)
    (hkeep : ∀ t ∈ T, keepToken t = true)
    (hkeys : ∀ t ∈ T, ∀ k ∈ abbrevKeys, t ≠ k) :
    canonTokens (String.mk (joinTokens T)) = T := by
  have hword : ∀ t ∈ T, t ≠ [] ∧ ∀ c ∈ t, isWordChar c = true := by
    intro t ht
    refine ⟨(hgood t ht).1, fun c hc => ?_⟩
    have h2 := (hgood t ht).2 c hc
    rw [lowerWordChar, Bool.and_eq_true] at h2
    exact h2.1
  have hWR : wordRuns (joinTokens T) = T := wordRuns_joinTokens T hword
  have hchar : ∀ c ∈ joinTokens T, lowerWordChar c = true ∨ c = ' ' := by
    intro c hc
    rcases mem_joinTokens T c hc with ⟨t, ht, hct⟩ | h
    · exact Or.inl ((hgood t ht).2 c hct)
    · exact Or.inr h
  have hlow : pyLower (joinTokens T) = joinTokens T := by
    refine pyLower_eq_self _ fun c hc => ?_
    rcases hchar c hc with h | rfl
    · exact toLower_eq_self h
    · decide
  have hstrip : pyStrip (joinTokens T) = joinTokens T := by
    refine pyStrip_eq_self _ ?_ ?_
    · intro c hc
      cases T with
      | nil => exact Option.noConfusion hc
      | cons t ts =>
        rw [joinTokens_head t ts (hword t (List.mem_cons_self _ _)).1] at hc
        cases t with
        | nil => exact Option.noConfusion hc
        | cons a t0 =>
          have hac : a = c := Option.some.inj hc
          subst hac
          exact word_not_space
            ((hword (a :: t0) (List.mem_cons_self _ _)).2 a (List.mem_cons_self _ _))
    · intro c hc
      obtain ⟨t, ht, htc⟩ := joinTokens_getLast T (fun t ht => (hword t ht).1) c hc
      obtain ⟨hne2, hcl⟩ := List.mem_getLast?_eq_getLast (Option.mem_def.2 htc)
      have hct : c ∈ t := hcl ▸ List.getLast_mem hne2
      exact word_not_space ((hword t ht).2 c hct)
  have hamp : applyAbbrevs (joinTokens T) = joinTokens T := by
    refine applyAbbrevs_eq_self _ ?_ ?_
    · intro k hk w hw
      rw [hWR] at hw
      exact hkeys w hw k hk
    · intro hmem
      rcases hchar '&' hmem with h | h
      · exact absurd h (by decide)
      · exact absurd h (by decide)
  simp only [canonTokens, unidecodeModel]
  rw [hlow, hstrip, hamp, splitTokens_punct_collapse, hWR, List.filter_eq_self.2 hkeep]

/-- **C6.** `canonicalize_name` is idempotent: applying it to one of its own
outputs returns that output unchanged.  The canonical form is a
space-joined sorted list of nonempty lowercase word-character tokens that
avoid the stop words and the abbreviation keys, and every stage of the
pipeline (lowercasing, stripping, abbreviation expansion, punctuation
removal, whitespace collapsing, token filtering, sorting) fixes such a
string.  The hypothesis records the fidelity scope of the embedding:
`unidecode` is modelled as the identity, which is its behaviour on ASCII
input. -/
theorem c6_canonicalize_idempotent (s : String) (h : isASCIIString s = true) :
    canonicalize_name (canonicalize_name s) = canonicalize_name s := by
  have hsub : ∀ t ∈ List.insertionSort tokLE (canonTokens s), t ∈ canonTokens s :=
    fun t ht => (List.perm_insertionSort tokLE (canonTokens s)).subset ht
  have h1 : canonTokens (canonicalize_name s) = List.insertionSort tokLE (canonTokens s) := by
    rw [canonicalize_name]
    exact canonical_fixed _
      (fun t ht => (canonTokens_good s t (hsub t ht)).1)
      (fun t ht => (canonTokens_good s t (hsub t ht)).2.1)
      (fun t ht => (canonTokens_good s t (hsub t ht)).2.2)
  rw [show canonicalize_name (canonicalize_name s)
      = String.mk (joinTokens (List.insertionSort tokLE (canonTokens (canonicalize_name s))))
    from rfl, h1, List.Sorted.insertionSort_eq (List.sorted_insertionSort tokLE _)]
  rfl

/-- Witness for C6 at a concrete input: `"Harvard Univ."` is ASCII and its
canonical form `"harvard"` is a fixed point of `canonicalize_name`. -/
theorem c6_canonicalize_idempotent_witness :
    isASCIIString "Harvard Univ." = true ∧
      canonicalize_name (canonicalize_name "Harvard Univ.") = canonicalize_name "Harvard Univ." :=
  ⟨by decide, c6_canonicalize_idempotent "Harvard Univ." (by decide)⟩

end UniPrices
